import Mathlib

set_option maxHeartbeats 1000000

/- Shallow embedding of src/hrd.py, a Hua Rong Dao (Klotski) sliding-block
   puzzle solver.  Modelling conventions:

   * Python ints are Lean Int; board heights are Nat (they arise from
     counting lines of the input file, and range(height) only makes sense
     for non-negative values).
   * Python dicts are association lists (List (key × value)) kept in
     insertion order: writing to an existing key keeps its slot, writing a
     fresh key appends at the end, pop removes the entry.  dict.values()
     is the list of values in that order.
   * Piece objects are records; Python mutation of a piece (set_coords) is
     modelled by replacing the stored record with an updated copy.
   * Board.grid in Python is always exactly the result of update_grid()
     applied to the current pieces: update_grid runs in __init__ and at
     the end of copy_board, and pieces are never mutated in between, so
     here the grid is the derived function Board.update_grid.
   * Fallible operations (KeyError on dict lookup, list.pop on a bad
     index, attribute or item access on None) return Option, with none
     standing for the raised exception.
   * Grid cell reads that Python would answer with an IndexError return
     the placeholder character * here, which is never a board symbol; the
     theorems that depend on in-bounds behaviour carry explicit in-bounds
     hypotheses matching their claims.
   * The searches key their visited sets by str(board), which renders
     board.grid row by row and is injective in the grid; we key the
     visited sets by the grid value itself.
   * uuid4() piece identities are modelled as Nats handed out by a counter
     threaded through the loader; only their freshness and stability are
     ever used by the program.
   * heapq pops a minimal element of the heap, with ties between equal
     keys broken by an unspecified internal order.  popMin pops the
     leftmost minimal entry, one legitimate refinement of that contract. -/

abbrev Pos := Int × Int

abbrev Grid := List (List Char)

def char_single : Char := '2'

def char_empty : Char := '.'

structure Piece where
  is_2_by_2 : Bool
  is_single : Bool
  coord_x : Int
  coord_y : Int
  orientation : Option Char
  uid : Nat
deriving DecidableEq, Repr

/-- Python dict lookup d[k] (some on hit, none models KeyError/miss). -/
def dictGet {K V : Type} [DecidableEq K] : List (K × V) → K → Option V
  | [], _ => none
  | e :: rest, k => if e.1 = k then some e.2 else dictGet rest k

/-- Python dict write d[k] = v: replace in place if the key exists, else
append at the end (insertion order preserved). -/
def dictInsert {K V : Type} [DecidableEq K] : List (K × V) → K → V → List (K × V)
  | [], k, v => [(k, v)]
  | e :: rest, k, v => if e.1 = k then (k, v) :: rest else e :: dictInsert rest k v

/-- Python dict pop: removes the entry for the key, if present. -/
def dictRemove {K V : Type} [DecidableEq K] : List (K × V) → K → List (K × V)
  | [], _ => []
  | e :: rest, k => if e.1 = k then rest else e :: dictRemove rest k

def dictValues {K V : Type} (d : List (K × V)) : List V := d.map Prod.snd

def dictKeys {K V : Type} (d : List (K × V)) : List K := d.map Prod.fst

structure Board where
  height : Nat
  pieces : List (Pos × Piece)
  goal_board_dict : Option (List (Nat × Piece)) := none
deriving DecidableEq, Repr

/-- self.width is set to the constant 4 for every Board. -/
def Board.width (_ : Board) : Int := 4

/-- Read grid[y][x].  Python would raise IndexError out of range (and wrap
negative indices, which never reach an unguarded read for the in-bounds
boards the theorems quantify over); the embedding answers * there. -/
def getCell (g : Grid) (y x : Int) : Char :=
  if hy : 0 ≤ y ∧ y.toNat < g.length then
    if hx : 0 ≤ x ∧ x.toNat < (g.get ⟨y.toNat, hy.2⟩).length then
      (g.get ⟨y.toNat, hy.2⟩).get ⟨x.toNat, hx.2⟩
    else '*'
  else '*'

/-- Write grid[y][x] = c, leaving the grid unchanged where Python would
raise IndexError. -/
def setCell (g : Grid) (y x : Int) (c : Char) : Grid :=
  if 0 ≤ y ∧ y.toNat < g.length ∧ 0 ≤ x ∧ x.toNat < (g.getD y.toNat []).length then
    g.set y.toNat ((g.getD y.toNat []).set x.toNat c)
  else g

/-- One iteration of the update_grid loop: stamp one piece's footprint. -/
def stampPiece (g : Grid) (piece : Piece) : Grid :=
  let x := piece.coord_x
  let y := piece.coord_y
  if piece.is_2_by_2 then
    setCell (setCell (setCell (setCell g y x '1') y (x + 1) '1') (y + 1) x '1') (y + 1) (x + 1) '1'
  else if piece.is_single then
    setCell g y x char_single
  else if piece.orientation = some 'h' then
    setCell (setCell g y x '<') y (x + 1) '>'
  else if piece.orientation = some 'v' then
    setCell (setCell g y x '^') (y + 1) x 'v'
  else g

/-- Board.update_grid: a blank height × 4 grid of empty symbols with every
piece's footprint stamped onto it, in dict order. -/
def Board.update_grid (b : Board) : Grid :=
  (dictValues b.pieces).foldl stampPiece
    (List.replicate b.height (List.replicate 4 char_empty))

/-- Python values that a Board may be compared against with ==. -/
inductive PyValue where
  | board (b : Board)
  | other
deriving DecidableEq

/-- Board.__eq__: grid equality against another Board, False otherwise. -/
def Board.pyEq (b : Board) (v : PyValue) : Bool :=
  match v with
  | .board o => decide (b.update_grid = o.update_grid)
  | .other => false

/-- Board equality as used by the searches (the isinstance branch). -/
def Board.eqBoard (b o : Board) : Bool := decide (b.update_grid = o.update_grid)

/-- Board.copy_board(new_key, old): copy every Piece record into a fresh
dict, pop the entry at old and re-file it under new_key, set the moved
piece's coordinates to new_key, and (definitionally here) re-derive the
grid.  none models the KeyError when old is not a key. -/
def Board.copy_board (b : Board) (new_key old : Pos) : Option Board := do
  let moved ← dictGet b.pieces old
  let rest := dictRemove b.pieces old
  let pieces := dictInsert rest new_key
    { moved with coord_x := new_key.1, coord_y := new_key.2 }
  pure { height := b.height, pieces := pieces, goal_board_dict := b.goal_board_dict }

/-- The new_keys list that generate_successors builds for one piece: the
four direction checks of the source, in source order (left, up, right,
down), each a boundary test followed by emptiness tests of the leading
edge in the current grid. -/
def newKeys (b : Board) (piece : Piece) : List Pos :=
  let g := b.update_grid
  let x := piece.coord_x
  let y := piece.coord_y
  if piece.is_2_by_2 then
    (if x - 1 ≥ 0 ∧ getCell g y (x - 1) = char_empty ∧ getCell g (y + 1) (x - 1) = char_empty
      then [(x - 1, y)] else []) ++
    (if y - 1 ≥ 0 ∧ getCell g (y - 1) x = char_empty ∧ getCell g (y - 1) (x + 1) = char_empty
      then [(x, y - 1)] else []) ++
    (if x + 2 < b.width ∧ getCell g y (x + 2) = char_empty ∧ getCell g (y + 1) (x + 2) = char_empty
      then [(x + 1, y)] else []) ++
    (if y + 2 < (b.height : Int) ∧ getCell g (y + 2) x = char_empty ∧ getCell g (y + 2) (x + 1) = char_empty
      then [(x, y + 1)] else [])
  else if piece.is_single then
    (if x - 1 ≥ 0 ∧ getCell g y (x - 1) = char_empty then [(x - 1, y)] else []) ++
    (if y - 1 ≥ 0 ∧ getCell g (y - 1) x = char_empty then [(x, y - 1)] else []) ++
    (if x + 1 < b.width ∧ getCell g y (x + 1) = char_empty then [(x + 1, y)] else []) ++
    (if y + 1 < (b.height : Int) ∧ getCell g (y + 1) x = char_empty then [(x, y + 1)] else [])
  else if piece.orientation = some 'h' then
    (if x - 1 ≥ 0 ∧ getCell g y (x - 1) = char_empty then [(x - 1, y)] else []) ++
    (if y - 1 ≥ 0 ∧ getCell g (y - 1) x = char_empty ∧ getCell g (y - 1) (x + 1) = char_empty
      then [(x, y - 1)] else []) ++
    (if x + 2 < b.width ∧ getCell g y (x + 2) = char_empty then [(x + 1, y)] else []) ++
    (if y + 1 < (b.height : Int) ∧ getCell g (y + 1) x = char_empty ∧ getCell g (y + 1) (x + 1) = char_empty
      then [(x, y + 1)] else [])
  else
    (if x - 1 ≥ 0 ∧ getCell g y (x - 1) = char_empty ∧ getCell g (y + 1) (x - 1) = char_empty
      then [(x - 1, y)] else []) ++
    (if y - 1 ≥ 0 ∧ getCell g (y - 1) x = char_empty then [(x, y - 1)] else []) ++
    (if x + 1 < b.width ∧ getCell g y (x + 1) = char_empty ∧ getCell g (y + 1) (x + 1) = char_empty
      then [(x + 1, y)] else []) ++
    (if y + 2 < (b.height : Int) ∧ getCell g (y + 2) x = char_empty then [(x, y + 1)] else [])

inductive State where
  | mk (board : Board) (hfn : Int) (f : Int) (depth : Int) (parent : Option State)

def State.board : State → Board
  | .mk b _ _ _ _ => b

def State.hfn : State → Int
  | .mk _ h _ _ _ => h

def State.f : State → Int
  | .mk _ _ f _ _ => f

def State.depth : State → Int
  | .mk _ _ _ d _ => d

def State.parent : State → Option State
  | .mk _ _ _ _ p => p

/-- The state.f = ... assignment astar performs before pushing. -/
def State.setF : State → Int → State
  | .mk b h _ d p, f => .mk b h f d p

/-- The body of the inner new_keys loop of generate_successors: look up the
moved piece's goal record, compute the incremental Manhattan update, clone
the board with the move applied, and build the successor State.  none
models the exceptions Python would raise (goal_board_dict None or missing
the uid, copy_board KeyError). -/
def mkSucc (s : State) (piece : Piece) (new_key : Pos) : Option State := do
  let dict ← s.board.goal_board_dict
  let goal_piece ← dictGet dict piece.uid
  let old_man_dist := |piece.coord_x - goal_piece.coord_x| + |piece.coord_y - goal_piece.coord_y|
  let new_man_dist := |new_key.1 - goal_piece.coord_x| + |new_key.2 - goal_piece.coord_y|
  let board ← s.board.copy_board new_key (piece.coord_x, piece.coord_y)
  pure (State.mk board ((s.hfn - old_man_dist) + new_man_dist) s.f (s.depth + 1) (some s))

/-- Option-valued map that stops at the first failure, like the order in
which the source loop raises. -/
def optMap {α β : Type} (f : α → Option β) : List α → Option (List β)
  | [] => some []
  | a :: rest => do
    let b2 ← f a
    let r ← optMap f rest
    pure (b2 :: r)

/-- State.generate_successors: for every piece in dict order and every
generated new_key in source order, append the successor built by mkSucc.
The append-accumulator loop of the source is rendered as map + flatten,
which produces the same list and fails on exactly the same first error. -/
def State.generate_successors (s : State) : Option (List State) := do
  let groups ← optMap
    (fun piece => optMap (mkSucc s piece) (newKeys s.board piece))
    (dictValues s.board.pieces)
  pure groups.flatten

/-- init_manhattan_distance: the double loop over board pieces and goal
board pieces, summing Manhattan distances between same-uid pairs. -/
def init_manhattan_distance (board goal_board : Board) : Int :=
  (dictValues board.pieces).foldl (fun total piece =>
    (dictValues goal_board.pieces).foldl (fun t goal_piece =>
      if piece.uid = goal_piece.uid then
        t + (|goal_piece.coord_x - piece.coord_x| + |goal_piece.coord_y - piece.coord_y|)
      else t) total) 0

/-- Search outcome: the returned node, the Python None for an exhausted
frontier, or an uncaught exception from generate_successors. -/
inductive SRes where
  | found (s : State)
  | noSolution
  | err

/-- heapq.heappop on the (f, state) heap: pops an entry with minimal key;
this model pops the leftmost minimal one. -/
def popMin : List (Int × State) → Option ((Int × State) × List (Int × State))
  | [] => none
  | e :: rest =>
    match popMin rest with
    | none => some (e, [])
    | some (m, rest2) => if e.1 ≤ m.1 then some (e, rest) else some (m, e :: rest2)

/-- The astar successor loop: for each successor in order whose grid is
not visited, set state.f = state.depth + state.hfn and push
(state.f, state) onto the heap list. -/
def astarPush (rest : List (Int × State)) : List State → List Grid → List (Int × State)
  | [], _ => rest
  | st :: tl, visited =>
    if st.board.update_grid ∈ visited then astarPush rest tl visited
    else
      astarPush (rest ++ [((st.setF (st.depth + st.hfn)).f, st.setF (st.depth + st.hfn))])
        tl visited

/-- The astar loop with explicit fuel.  The outer none means the fuel ran
out; some pairs the outcome with the trace of grids that were expanded
(had generate_successors called on them), in expansion order. -/
def astarAux (goal_board : Board) : Nat → List (Int × State) → List Grid →
    Option (SRes × List Grid)
  | 0, _, _ => none
  | n + 1, heap, visited =>
    match popMin heap with
    | none => some (.noSolution, [])
    | some ((_, curr), rest) =>
      if curr.board.update_grid ∈ visited then
        astarAux goal_board n rest visited
      else
        let visited2 := curr.board.update_grid :: visited
        if curr.board.eqBoard goal_board then some (.found curr, [])
        else
          match curr.generate_successors with
          | none => some (.err, [])
          | some succs =>
            match astarAux goal_board n (astarPush rest succs visited2) visited2 with
            | none => none
            | some (r, tr) => some (r, curr.board.update_grid :: tr)

/-- astar entry: push (initial.f, initial), start with an empty visited set. -/
def astar (initial : State) (goal_board : Board) (fuel : Nat) :
    Option (SRes × List Grid) :=
  astarAux goal_board fuel [(initial.f, initial)] []

/-- list.pop() on the dfs stack: pops the last element. -/
def popBack {α : Type} : List α → Option (α × List α)
  | [] => none
  | [a] => some (a, [])
  | a :: b :: rest =>
    match popBack (b :: rest) with
    | some (x, r) => some (x, a :: r)
    | none => some (a, [])

/-- The dfs successor loop: append each successor in order whose grid is
not visited to the end of the stack. -/
def dfsPush (rest : List State) : List State → List Grid → List State
  | [], _ => rest
  | st :: tl, visited =>
    if st.board.update_grid ∈ visited then dfsPush rest tl visited
    else dfsPush (rest ++ [st]) tl visited

/-- The dfs loop with explicit fuel, traced like astarAux. -/
def dfsAux (goal_board : Board) : Nat → List State → List Grid →
    Option (SRes × List Grid)
  | 0, _, _ => none
  | n + 1, stack, visited =>
    match popBack stack with
    | none => some (.noSolution, [])
    | some (curr, rest) =>
      if curr.board.update_grid ∈ visited then
        dfsAux goal_board n rest visited
      else
        let visited2 := curr.board.update_grid :: visited
        if curr.board.eqBoard goal_board then some (.found curr, [])
        else
          match curr.generate_successors with
          | none => some (.err, [])
          | some succs =>
            match dfsAux goal_board n (dfsPush rest succs visited2) visited2 with
            | none => none
            | some (r, tr) => some (r, curr.board.update_grid :: tr)

/-- dfs entry: stack = [initial], empty visited set. -/
def dfs (initial : State) (goal_board : Board) (fuel : Nat) :
    Option (SRes × List Grid) :=
  dfsAux goal_board fuel [initial] []

/-- Manhattan distance from (x, y) to a piece, as find_min_index computes
it. -/
def manDist (x y : Int) (piece : Piece) : Int :=
  |x - piece.coord_x| + |y - piece.coord_y|

/-- find_min_index: index of the first piece of arr at minimal Manhattan
distance from (x, y); min_dist starts at float inf (modelled none) and is
beaten only by strictly smaller distances, so the earliest minimum wins. -/
def find_min_index (arr : List Piece) (x y : Int) : Nat :=
  (arr.enum.foldl (fun acc ip =>
    match acc.2 with
    | none => (ip.1, some (manDist x y ip.2))
    | some m =>
      if manDist x y ip.2 < m then (ip.1, some (manDist x y ip.2)) else acc)
    ((0 : Nat), (none : Option Int))).1

/-- list.pop(i): returns the element at index i and the list without it,
none modelling the IndexError on a bad index. -/
def listPop {α : Type} (l : List α) (i : Nat) : Option (α × List α) :=
  match l.get? i with
  | none => none
  | some a => some (a, l.eraseIdx i)

/-- The mutable locals of read_from_file, as a record threaded through the
character loop.  heightAcc is the height_ counter; nextUid models uuid4
by a counter. -/
structure RF where
  goal_board_dict : List (Nat × Piece)
  singles : List Piece
  vert : List Piece
  hori : List Piece
  double : Option Piece
  line_index : Int
  pieces : List (Pos × Piece)
  final_pieces : List (Pos × Piece)
  final : Bool
  found_2by2 : Bool
  finalfound_2by2 : Bool
  heightAcc : Nat
  nextUid : Nat
deriving DecidableEq, Repr

def initRF : RF :=
  { goal_board_dict := [], singles := [], vert := [], hori := [], double := none,
    line_index := 0, pieces := [], final_pieces := [], final := false,
    found_2by2 := false, finalfound_2by2 := false, heightAcc := 0, nextUid := 0 }

/-- The body of the per-character loop of read_from_file: the initial
section fills the piece dict and the shape pools; the goal section pops
the nearest-first match from the pool of the same shape and records it in
goal_board_dict.  none models the IndexError of popping an exhausted pool
and the AttributeError of double.uid when no 2x2 was loaded. -/
def processChar (st : RF) (x : Int) (ch : Char) : Option RF :=
  if st.final = false then
    if ch = '^' then
      let piece : Piece :=
        { is_2_by_2 := false, is_single := false, coord_x := x, coord_y := st.line_index,
          orientation := some 'v', uid := st.nextUid }
      some { st with pieces := dictInsert st.pieces (x, st.line_index) piece,
                     vert := st.vert ++ [piece], nextUid := st.nextUid + 1 }
    else if ch = '<' then
      let piece : Piece :=
        { is_2_by_2 := false, is_single := false, coord_x := x, coord_y := st.line_index,
          orientation := some 'h', uid := st.nextUid }
      some { st with pieces := dictInsert st.pieces (x, st.line_index) piece,
                     hori := st.hori ++ [piece], nextUid := st.nextUid + 1 }
    else if ch = char_single then
      let piece : Piece :=
        { is_2_by_2 := false, is_single := true, coord_x := x, coord_y := st.line_index,
          orientation := none, uid := st.nextUid }
      some { st with pieces := dictInsert st.pieces (x, st.line_index) piece,
                     singles := st.singles ++ [piece], nextUid := st.nextUid + 1 }
    else if ch = '1' then
      if st.found_2by2 = false then
        let piece : Piece :=
          { is_2_by_2 := true, is_single := false, coord_x := x, coord_y := st.line_index,
            orientation := none, uid := st.nextUid }
        some { st with pieces := dictInsert st.pieces (x, st.line_index) piece,
                       double := some piece, found_2by2 := true, nextUid := st.nextUid + 1 }
      else some st
    else some st
  else
    if ch = '^' then
      match listPop st.vert (find_min_index st.vert x st.line_index) with
      | none => none
      | some (matched, rest) =>
        let piece : Piece :=
          { is_2_by_2 := false, is_single := false, coord_x := x, coord_y := st.line_index,
            orientation := some 'v', uid := matched.uid }
        some { st with vert := rest,
                       final_pieces := dictInsert st.final_pieces (x, st.line_index) piece,
                       goal_board_dict := dictInsert st.goal_board_dict matched.uid piece }
    else if ch = '<' then
      match listPop st.hori (find_min_index st.hori x st.line_index) with
      | none => none
      | some (matched, rest) =>
        let piece : Piece :=
          { is_2_by_2 := false, is_single := false, coord_x := x, coord_y := st.line_index,
            orientation := some 'h', uid := matched.uid }
        some { st with hori := rest,
                       final_pieces := dictInsert st.final_pieces (x, st.line_index) piece,
                       goal_board_dict := dictInsert st.goal_board_dict matched.uid piece }
    else if ch = char_single then
      match listPop st.singles (find_min_index st.singles x st.line_index) with
      | none => none
      | some (matched, rest) =>
        let piece : Piece :=
          { is_2_by_2 := false, is_single := true, coord_x := x, coord_y := st.line_index,
            orientation := none, uid := matched.uid }
        some { st with singles := rest,
                       final_pieces := dictInsert st.final_pieces (x, st.line_index) piece,
                       goal_board_dict := dictInsert st.goal_board_dict matched.uid piece }
    else if ch = '1' then
      if st.finalfound_2by2 = false then
        match st.double with
        | none => none
        | some d =>
          let piece : Piece :=
            { is_2_by_2 := true, is_single := false, coord_x := x, coord_y := st.line_index,
              orientation := none, uid := d.uid }
          some { st with final_pieces := dictInsert st.final_pieces (x, st.line_index) piece,
                         goal_board_dict := dictInsert st.goal_board_dict d.uid piece,
                         finalfound_2by2 := true }
      else some st
    else some st

/-- One line of read_from_file: bump height_, switch to the goal section
on the first blank line (resetting height_ and line_index), otherwise run
the character loop and bump line_index.  Lines carry no newline here; the
trailing newline Python iterates over matches no symbol. -/
def processLine (st : RF) (line : String) : Option RF :=
  let st1 := { st with heightAcc := st.heightAcc + 1 }
  if line = "" then
    if st1.final = false then
      some { st1 with heightAcc := 0, final := true, line_index := 0 }
    else some st1
  else do
    let st2 ← line.toList.enum.foldlM (fun s ic => processChar s (ic.1 : Int) ic.2) st1
    pure { st2 with line_index := st2.line_index + 1 }

/-- read_from_file on the list of input lines: returns the initial board
(carrying goal_board_dict) and the goal board (whose goal_board_dict is
the Python None). -/
def read_from_file (lines : List String) : Option (Board × Board) := do
  let st ← lines.foldlM processLine initRF
  pure ({ height := st.heightAcc, pieces := st.pieces,
          goal_board_dict := some st.goal_board_dict },
        { height := st.heightAcc, pieces := st.final_pieces, goal_board_dict := none })

/-- A grid is h rows of width 4. -/
def gridDims (g : Grid) (h : Nat) : Prop := g.length = h ∧ ∀ row ∈ g, row.length = 4

/- ==============  footprints, well-formedness, stamping  ============== -/

/-- The set of cells a piece occupies, classified with the same shape
precedence the source uses (2x2, then single, then h, else vertical). -/
def footprint (p : Piece) : List Pos :=
  if p.is_2_by_2 then
    [(p.coord_x, p.coord_y), (p.coord_x + 1, p.coord_y),
     (p.coord_x, p.coord_y + 1), (p.coord_x + 1, p.coord_y + 1)]
  else if p.is_single then [(p.coord_x, p.coord_y)]
  else if p.orientation = some 'h' then
    [(p.coord_x, p.coord_y), (p.coord_x + 1, p.coord_y)]
  else [(p.coord_x, p.coord_y), (p.coord_x, p.coord_y + 1)]

/-- The symbol update_grid writes at a given cell of a piece's footprint. -/
def markerAt (p : Piece) (pt : Pos) : Char :=
  if p.is_2_by_2 then '1'
  else if p.is_single then char_single
  else if p.orientation = some 'h' then
    if pt = (p.coord_x, p.coord_y) then '<' else '>'
  else if pt = (p.coord_x, p.coord_y) then '^' else 'v'

/-- A piece is one of the four recognized shapes (under the source's
dispatch precedence). -/
def wfPiece (p : Piece) : Prop :=
  p.is_2_by_2 = true ∨ p.is_single = true ∨
    p.orientation = some 'h' ∨ p.orientation = some 'v'

def inBoundsPtH (hgt : Nat) (pt : Pos) : Prop :=
  0 ≤ pt.1 ∧ pt.1 < 4 ∧ 0 ≤ pt.2 ∧ pt.2 < (hgt : Int)

def pieceInBoundsH (hgt : Nat) (p : Piece) : Prop :=
  ∀ pt ∈ footprint p, inBoundsPtH hgt pt

/-- Well-formed board: every piece is a recognized in-bounds shape keyed
by its own top-left corner, keys are distinct, and footprints of pieces
at distinct keys never overlap. -/
def wfBoard (b : Board) : Prop :=
  (∀ e ∈ b.pieces, wfPiece e.2 ∧ pieceInBoundsH b.height e.2 ∧
    e.1 = (e.2.coord_x, e.2.coord_y)) ∧
  (dictKeys b.pieces).Nodup ∧
  (∀ e1 ∈ b.pieces, ∀ e2 ∈ b.pieces, e1.1 ≠ e2.1 →
    ∀ pt ∈ footprint e1.2, pt ∉ footprint e2.2)

/- ==============  C1: spec-level legality of moves  ============== -/

/-- The piece relocated so that its top-left corner is k. -/
def movedTo (p : Piece) (k : Pos) : Piece :=
  { p with coord_x := k.1, coord_y := k.2 }

/-- Spec: the destination keeps the piece's footprint inside
[0, width) x [0, height). -/
def destOK (b : Board) (p : Piece) (k : Pos) : Prop :=
  ∀ pt ∈ footprint (movedTo p k), inBoundsPtH b.height pt

/-- Spec: the grid cell is the empty symbol. -/
def cellEmpty (b : Board) (pt : Pos) : Prop :=
  getCell b.update_grid pt.2 pt.1 = char_empty

/-- The move-generation rules exactly as the specification words them,
shape by shape: boundary containment of the destination footprint plus
emptiness of the leading-edge cells in that direction. -/
def specLegalDest (b : Board) (p : Piece) (k : Pos) : Prop :=
  if p.is_2_by_2 then
    (k = (p.coord_x - 1, p.coord_y) ∧ destOK b p k ∧
      cellEmpty b (p.coord_x - 1, p.coord_y) ∧ cellEmpty b (p.coord_x - 1, p.coord_y + 1)) ∨
    (k = (p.coord_x, p.coord_y - 1) ∧ destOK b p k ∧
      cellEmpty b (p.coord_x, p.coord_y - 1) ∧ cellEmpty b (p.coord_x + 1, p.coord_y - 1)) ∨
    (k = (p.coord_x + 1, p.coord_y) ∧ destOK b p k ∧
      cellEmpty b (p.coord_x + 2, p.coord_y) ∧ cellEmpty b (p.coord_x + 2, p.coord_y + 1)) ∨
    (k = (p.coord_x, p.coord_y + 1) ∧ destOK b p k ∧
      cellEmpty b (p.coord_x, p.coord_y + 2) ∧ cellEmpty b (p.coord_x + 1, p.coord_y + 2))
  else if p.is_single then
    (k = (p.coord_x - 1, p.coord_y) ∨ k = (p.coord_x, p.coord_y - 1) ∨
     k = (p.coord_x + 1, p.coord_y) ∨ k = (p.coord_x, p.coord_y + 1)) ∧
    destOK b p k ∧ cellEmpty b k
  else if p.orientation = some 'h' then
    (k = (p.coord_x - 1, p.coord_y) ∧ destOK b p k ∧
      cellEmpty b (p.coord_x - 1, p.coord_y)) ∨
    (k = (p.coord_x, p.coord_y - 1) ∧ destOK b p k ∧
      cellEmpty b (p.coord_x, p.coord_y - 1) ∧ cellEmpty b (p.coord_x + 1, p.coord_y - 1)) ∨
    (k = (p.coord_x + 1, p.coord_y) ∧ destOK b p k ∧
      cellEmpty b (p.coord_x + 2, p.coord_y)) ∨
    (k = (p.coord_x, p.coord_y + 1) ∧ destOK b p k ∧
      cellEmpty b (p.coord_x, p.coord_y + 1) ∧ cellEmpty b (p.coord_x + 1, p.coord_y + 1))
  else
    (k = (p.coord_x - 1, p.coord_y) ∧ destOK b p k ∧
      cellEmpty b (p.coord_x - 1, p.coord_y) ∧ cellEmpty b (p.coord_x - 1, p.coord_y + 1)) ∨
    (k = (p.coord_x, p.coord_y - 1) ∧ destOK b p k ∧
      cellEmpty b (p.coord_x, p.coord_y - 1)) ∨
    (k = (p.coord_x + 1, p.coord_y) ∧ destOK b p k ∧
      cellEmpty b (p.coord_x + 1, p.coord_y) ∧ cellEmpty b (p.coord_x + 1, p.coord_y + 1)) ∨
    (k = (p.coord_x, p.coord_y + 1) ∧ destOK b p k ∧
      cellEmpty b (p.coord_x, p.coord_y + 2))

instance (hgt : Nat) (pt : Pos) : Decidable (inBoundsPtH hgt pt) := by
  unfold inBoundsPtH; infer_instance

instance (hgt : Nat) (p : Piece) : Decidable (pieceInBoundsH hgt p) := by
  unfold pieceInBoundsH; infer_instance

instance (p : Piece) : Decidable (wfPiece p) := by
  unfold wfPiece; infer_instance

instance (b : Board) : Decidable (wfBoard b) := by
  unfold wfBoard; infer_instance

instance (b : Board) (p : Piece) (k : Pos) : Decidable (destOK b p k) := by
  unfold destOK; infer_instance

instance (b : Board) (pt : Pos) : Decidable (cellEmpty b pt) := by
  unfold cellEmpty; infer_instance

instance (b : Board) (p : Piece) (k : Pos) : Decidable (specLegalDest b p k) := by
  unfold specLegalDest
  repeat' split
  all_goals infer_instance

def cOneP : Piece :=
  { is_2_by_2 := false, is_single := true, coord_x := 1, coord_y := 0,
    orientation := none, uid := 0 }

def cOneB : Board := { height := 2, pieces := [((1, 0), cOneP)] }

/- ==============  C5: Board equality  ============== -/

/-- A board with the same layout but piece identities renamed by f. -/
def relabel (f : Nat → Nat) (b : Board) : Board :=
  { b with pieces := b.pieces.map (fun e => (e.1, { e.2 with uid := f e.2.uid })) }

/- ==============  C4: copy_board / cloneWithMove  ============== -/

def cFourP1 : Piece :=
  { is_2_by_2 := false, is_single := true, coord_x := 0, coord_y := 0,
    orientation := none, uid := 0 }

def cFourP2 : Piece :=
  { is_2_by_2 := false, is_single := true, coord_x := 1, coord_y := 0,
    orientation := none, uid := 1 }

def cFourB : Board := { height := 1, pieces := [((0, 0), cFourP1), ((1, 0), cFourP2)] }

/- ==============  C7: update_grid stamping  ============== -/

def cSevenH : Piece :=
  { is_2_by_2 := false, is_single := false, coord_x := 0, coord_y := 0,
    orientation := some 'h', uid := 0 }

def cSevenS : Piece :=
  { is_2_by_2 := false, is_single := true, coord_x := 1, coord_y := 0,
    orientation := none, uid := 1 }

def cSevenB : Board := { height := 1, pieces := [((0, 0), cSevenH), ((1, 0), cSevenS)] }

/-- Manhattan distance of a piece to its same-identity goal record (0
when the goal map is absent or lacks the identity; those cases are ruled
out wherever this participates in a proved equality). -/
def distToGoal (dict : Option (List (Nat × Piece))) (p : Piece) : Int :=
  match dict with
  | none => 0
  | some d =>
    match dictGet d p.uid with
    | none => 0
    | some gp => |p.coord_x - gp.coord_x| + |p.coord_y - gp.coord_y|

/-- Modelled from the spec: the heuristic recomputed from scratch on a
Board, the sum over all pieces of the Manhattan distance to the
same-identity goal position in the board's goal map. -/
def hScratch (b : Board) : Int :=
  ((dictValues b.pieces).map (distToGoal b.goal_board_dict)).sum

def cThreeP : Piece :=
  { is_2_by_2 := false, is_single := true, coord_x := 0, coord_y := 0,
    orientation := none, uid := 0 }

def cThreeG : Piece :=
  { is_2_by_2 := false, is_single := true, coord_x := 3, coord_y := 0,
    orientation := none, uid := 0 }

def cThreeB : Board :=
  { height := 2, pieces := [((0, 0), cThreeP)], goal_board_dict := some [(0, cThreeG)] }

def cThreeS : State := State.mk cThreeB 3 3 0 none

def cThreeDflt : State := State.mk cThreeB 0 0 0 none

def cTwoGoalB : Board := { height := 2, pieces := [((3, 0), cThreeG)] }

/- ==============  C10: goal map totality  ============== -/

/-- The lookup goal_board_dict[uid] as generate_successors performs it:
none when the dict is the Python None or lacks the identity. -/
def goalLookup (b : Board) (uid : Nat) : Option Piece :=
  match b.goal_board_dict with
  | none => none
  | some d => dictGet d uid

/-- Every piece entry is keyed by its own coordinates. -/
def keyConsistent (b : Board) : Prop :=
  ∀ e ∈ b.pieces, e.1 = (e.2.coord_x, e.2.coord_y)

/-- The goal map resolves the identity of every piece of the board. -/
def uidCover (b : Board) : Prop :=
  ∀ p ∈ dictValues b.pieces, (goalLookup b p.uid).isSome = true

instance (b : Board) : Decidable (keyConsistent b) := by
  unfold keyConsistent; infer_instance

instance (b : Board) : Decidable (uidCover b) := by
  unfold uidCover; infer_instance

/-- Loop invariant of read_from_file: a 2x2 is recorded exactly when
found; goal-matching only happens in the goal section; and every loaded
initial piece is still in a candidate pool, is the pending 2x2, or has
its identity already matched in goal_board_dict. -/
def rfInv (st : RF) : Prop :=
  (st.found_2by2 = false → st.double = none) ∧
  (st.finalfound_2by2 = true → st.final = true) ∧
  (∀ p ∈ dictValues st.pieces,
    p ∈ st.singles ∨ p ∈ st.vert ∨ p ∈ st.hori ∨ st.double = some p ∨
      ∃ gp, dictGet st.goal_board_dict p.uid = some gp) ∧
  (st.finalfound_2by2 = true → ∀ d, st.double = some d →
      ∃ gp, dictGet st.goal_board_dict d.uid = some gp)

/-- The initial board read_from_file builds from the final loader state. -/
def rfBoard (st : RF) : Board :=
  { height := st.heightAcc, pieces := st.pieces, goal_board_dict := some st.goal_board_dict }

/-- The goal board read_from_file builds (its goal dict is Python None). -/
def rfGoalBoard (st : RF) : Board :=
  { height := st.heightAcc, pieces := st.final_pieces, goal_board_dict := none }

def cTenBadB : Board :=
  { height := 2, pieces := [((0, 0), cThreeP)], goal_board_dict := some [] }

def cTenBadS : State := State.mk cTenBadB 0 0 0 none

def cTenLines : List String := ["2...", "....", "", "...2", "...."]

/- ==============  C6: termination of both searches  ============== -/

/-- The symbols any derived grid can contain. -/
def alphabet : List Char := ['.', '1', '2', '<', '>', '^', 'v']

def validGrid (H : Nat) (g : Grid) : Prop :=
  g.length = H ∧ ∀ row ∈ g, row.length = 4 ∧ ∀ c ∈ row, c ∈ alphabet

def charCode (c : Char) : Fin 7 :=
  if c = '.' then 0 else if c = '1' then 1 else if c = '2' then 2
  else if c = '<' then 3 else if c = '>' then 4 else if c = '^' then 5 else 6

/-- A valid grid encoded as a function on coordinates. -/
def gridCode (H : Nat) (g : Grid) : Fin H → Fin 4 → Fin 7 :=
  fun i j => charCode (getCell g (i : Int) (j : Int))

/-- The well-formedness a search run preserves: consistent keys, distinct
keys, a goal map covering every identity, a fixed board height and a
bounded piece count. -/
def wfS (H P : Nat) (s : State) : Prop :=
  keyConsistent s.board ∧ (dictKeys s.board.pieces).Nodup ∧ uidCover s.board ∧
    s.board.height = H ∧ s.board.pieces.length ≤ P

instance (H P : Nat) (s : State) : Decidable (wfS H P s) := by
  unfold wfS
  infer_instance

/-- Number of functions from grid coordinates to the 7-symbol alphabet:
an upper bound on distinct rendered grids of height H. -/
def gridCount (H : Nat) : Nat := Fintype.card (Fin H → Fin 4 → Fin 7)

/-- Fuel that dominates the loop measure for every board of height H with
at most P pieces: each of the at most gridCount H distinct grids is
expanded at most once, each expansion pushes at most 4 * P successors. -/
def stateBound (H P : Nat) : Nat := gridCount H * (4 * P + 1) + 2

def cSixP : Piece :=
  { is_2_by_2 := false, is_single := true, coord_x := 0, coord_y := 0,
    orientation := none, uid := 0 }

def cSixB : Board :=
  { height := 2, pieces := [((0, 0), cSixP)], goal_board_dict := some [(0, cSixP)] }

def cSixGoal : Board := { height := 2, pieces := [((0, 0), cSixP)] }

def cSixS : State := State.mk cSixB 0 0 0 none

/- ==============  C8: greedy nearest-first matching  ============== -/

/-- Default piece used with getD where an index is known in range. -/
def defaultPiece : Piece :=
  { is_2_by_2 := false, is_single := false, coord_x := 0, coord_y := 0,
    orientation := none, uid := 0 }

/-- The goal-section vertical piece record built for a matched identity. -/
def goalPieceV (x y : Int) (u : Nat) : Piece :=
  { is_2_by_2 := false, is_single := false, coord_x := x, coord_y := y,
    orientation := some 'v', uid := u }

/-- The goal-section horizontal piece record built for a matched identity. -/
def goalPieceH (x y : Int) (u : Nat) : Piece :=
  { is_2_by_2 := false, is_single := false, coord_x := x, coord_y := y,
    orientation := some 'h', uid := u }

/-- The goal-section single piece record built for a matched identity. -/
def goalPieceS (x y : Int) (u : Nat) : Piece :=
  { is_2_by_2 := false, is_single := true, coord_x := x, coord_y := y,
    orientation := none, uid := u }

/-- The loop body of find_min_index as a named function. -/
def fmiF (x y : Int) (acc : Nat × Option Int) (ip : Nat × Piece) : Nat × Option Int :=
  match acc.2 with
  | none => (ip.1, some (manDist x y ip.2))
  | some m =>
    if manDist x y ip.2 < m then (ip.1, some (manDist x y ip.2)) else acc

def cEightPV : Piece :=
  { is_2_by_2 := false, is_single := false, coord_x := 0, coord_y := 0,
    orientation := some 'v', uid := 5 }

def cEightPV2 : Piece :=
  { is_2_by_2 := false, is_single := false, coord_x := 3, coord_y := 0,
    orientation := some 'v', uid := 6 }

def cEightPH : Piece :=
  { is_2_by_2 := false, is_single := false, coord_x := 0, coord_y := 1,
    orientation := some 'h', uid := 7 }

def cEightPS : Piece :=
  { is_2_by_2 := false, is_single := true, coord_x := 2, coord_y := 2,
    orientation := none, uid := 8 }

def cEightRF : RF :=
  { goal_board_dict := [], singles := [cEightPS], vert := [cEightPV, cEightPV2],
    hori := [cEightPH], double := none, line_index := 0, pieces := [],
    final_pieces := [], final := true, found_2by2 := true, finalfound_2by2 := false,
    heightAcc := 0, nextUid := 9 }

/- ======================  grid-level lemmas  ====================== -/

/-- getCell in terms of getD: out-of-range reads give the placeholder. -/
theorem getCell_def (g : Grid) (y x : Int) :
    getCell g y x =
      if 0 ≤ y ∧ 0 ≤ x then (g.getD y.toNat []).getD x.toNat '*' else '*' := by
  unfold getCell
  by_cases hy : 0 ≤ y ∧ y.toNat < g.length
  · rw [dif_pos hy]
    have hrow : g.getD y.toNat [] = g.get ⟨y.toNat, hy.2⟩ := by
      rw [List.getD_eq_get?, List.get?_eq_get hy.2]; rfl
    by_cases hx : 0 ≤ x ∧ x.toNat < (g.get ⟨y.toNat, hy.2⟩).length
    · rw [dif_pos hx, if_pos ⟨hy.1, hx.1⟩, hrow, List.getD_eq_get?,
        List.get?_eq_get hx.2]
      rfl
    · rw [dif_neg hx]
      by_cases hx0 : 0 ≤ x
      · rw [if_pos ⟨hy.1, hx0⟩, hrow, List.getD_eq_default]
        exact Nat.le_of_not_lt (fun h => hx ⟨hx0, h⟩)
      · rw [if_neg (fun h => hx0 h.2)]
  · rw [dif_neg hy]
    by_cases hy0 : 0 ≤ y
    · have hnil : g.getD y.toNat [] = [] :=
        List.getD_eq_default _ _ (Nat.le_of_not_lt (fun h => hy ⟨hy0, h⟩))
      by_cases hx0 : 0 ≤ x
      · rw [if_pos ⟨hy0, hx0⟩, hnil]; simp [List.getD]
      · rw [if_neg (fun h => hx0 h.2)]
    · rw [if_neg (fun h => hy0 h.1)]

theorem getD_mem {α : Type} {l : List α} {n : Nat} {d : α} (h : n < l.length) :
    l.getD n d ∈ l := by
  rw [List.getD_eq_get?, List.get?_eq_get h]
  exact List.get_mem l n h

theorem getD_set_self {α : Type} (l : List α) (n : Nat) (a d : α) (h : n < l.length) :
    (l.set n a).getD n d = a := by
  rw [List.getD_eq_get?, List.get?_set_eq, List.get?_eq_get h]
  rfl

theorem getD_set_ne {α : Type} (l : List α) {m n : Nat} (a d : α) (h : m ≠ n) :
    (l.set m a).getD n d = l.getD n d := by
  rw [List.getD_eq_get?, List.get?_set_ne _ _ h, ← List.getD_eq_get?]

theorem setCell_dims {g : Grid} {h : Nat} (hd : gridDims g h) (y x : Int) (c : Char) :
    gridDims (setCell g y x c) h := by
  unfold setCell
  split
  case isTrue hc =>
    refine ⟨by rw [List.length_set]; exact hd.1, ?_⟩
    intro row hrow
    rcases List.mem_or_eq_of_mem_set hrow with h1 | h2
    · exact hd.2 _ h1
    · rw [h2, List.length_set]
      exact hd.2 _ (getD_mem hc.2.1)
  case isFalse => exact hd

theorem getCell_setCell_eq {g : Grid} {h : Nat} (hd : gridDims g h) {y x : Int}
    (hy0 : 0 ≤ y) (hyl : y < (h : Int)) (hx0 : 0 ≤ x) (hxl : x < 4) (c : Char) :
    getCell (setCell g y x c) y x = c := by
  have hyn : y.toNat < g.length := by rw [hd.1]; omega
  have hrowlen : (g.getD y.toNat []).length = 4 := hd.2 _ (getD_mem hyn)
  unfold setCell
  rw [if_pos ⟨hy0, hyn, hx0, by rw [hrowlen]; omega⟩, getCell_def,
    if_pos ⟨hy0, hx0⟩, getD_set_self _ _ _ _ hyn, getD_set_self]
  rw [hrowlen]
  omega

theorem getCell_setCell_ne {g : Grid} {y x y2 x2 : Int}
    (hne : ¬(x = x2 ∧ y = y2)) (c : Char) :
    getCell (setCell g y x c) y2 x2 = getCell g y2 x2 := by
  unfold setCell
  split
  case isFalse => rfl
  case isTrue hc =>
    rw [getCell_def, getCell_def]
    by_cases h2 : 0 ≤ y2 ∧ 0 ≤ x2
    · rw [if_pos h2, if_pos h2]
      by_cases hyy : y2 = y
      · subst hyy
        rw [getD_set_self _ _ _ _ hc.2.1]
        have hxx : x.toNat ≠ x2.toNat := by omega
        rw [getD_set_ne _ _ _ hxx]
      · have hyn : y.toNat ≠ y2.toNat := by omega
        rw [getD_set_ne _ _ _ hyn]
    · rw [if_neg h2, if_neg h2]

theorem blank_dims (h : Nat) :
    gridDims (List.replicate h (List.replicate 4 char_empty)) h := by
  refine ⟨List.length_replicate _ _, ?_⟩
  intro row hrow
  rw [List.mem_replicate] at hrow
  rw [hrow.2, List.length_replicate]

theorem getCell_blank (h : Nat) (y x : Int) :
    getCell (List.replicate h (List.replicate 4 char_empty)) y x =
      if 0 ≤ y ∧ y < (h : Int) ∧ 0 ≤ x ∧ x < 4 then char_empty else '*' := by
  rw [getCell_def]
  by_cases hy0 : 0 ≤ y
  · by_cases hx0 : 0 ≤ x
    · rw [if_pos ⟨hy0, hx0⟩]
      by_cases hyl : y < (h : Int)
      · have hyn : y.toNat < (List.replicate h (List.replicate 4 char_empty)).length := by
          rw [List.length_replicate]; omega
        have hrow : (List.replicate h (List.replicate 4 char_empty)).getD y.toNat [] =
            List.replicate 4 char_empty := by
          have hm := getD_mem (d := ([] : List Char)) hyn
          rw [List.mem_replicate] at hm
          exact hm.2
        rw [hrow]
        by_cases hxl : x < 4
        · have hxn : x.toNat < (List.replicate 4 char_empty).length := by
            rw [List.length_replicate]; omega
          have hm := getD_mem (d := '*') hxn
          rw [List.mem_replicate] at hm
          rw [if_pos ⟨hy0, hyl, hx0, hxl⟩]
          exact hm.2
        · rw [if_neg (by omega), List.getD_eq_default]
          rw [List.length_replicate]; omega
      · have hz : (List.replicate h (List.replicate 4 char_empty)).getD y.toNat [] = [] :=
          List.getD_eq_default _ _ (by rw [List.length_replicate]; omega)
        rw [if_neg (by omega), hz]
        simp [List.getD]
    · rw [if_neg (fun hc => hx0 hc.2), if_neg (by omega)]
  · rw [if_neg (fun hc => hy0 hc.1), if_neg (by omega)]

theorem markerAt_ne_empty (p : Piece) (pt : Pos) : markerAt p pt ≠ char_empty := by
  unfold markerAt char_single char_empty
  repeat' split
  all_goals decide

theorem ne_pt {pt : Pos} {a b : Int} (h : pt ≠ (a, b)) : ¬(a = pt.1 ∧ b = pt.2) := by
  rintro ⟨h1, h2⟩
  exact h (by cases pt; simp_all)

theorem stampPiece_dims {g : Grid} {h : Nat} (hd : gridDims g h) (p : Piece) :
    gridDims (stampPiece g p) h := by
  simp only [stampPiece]
  repeat' split
  all_goals
    first
    | exact hd
    | exact setCell_dims hd _ _ _
    | exact setCell_dims (setCell_dims hd _ _ _) _ _ _
    | exact setCell_dims (setCell_dims (setCell_dims (setCell_dims hd _ _ _) _ _ _) _ _ _) _ _ _

theorem update_grid_dims (b : Board) : gridDims b.update_grid b.height := by
  have key : ∀ (ps : List Piece) (g : Grid), gridDims g b.height →
      gridDims (ps.foldl stampPiece g) b.height := by
    intro ps
    induction ps with
    | nil => intro g hg; exact hg
    | cons p ps ih => intro g hg; exact ih _ (stampPiece_dims hg p)
  exact key _ _ (blank_dims _)

theorem getCell_stampPiece_notin {g : Grid} {p : Piece} {pt : Pos}
    (h : pt ∉ footprint p) :
    getCell (stampPiece g p) pt.2 pt.1 = getCell g pt.2 pt.1 := by
  simp only [stampPiece, footprint] at h ⊢
  by_cases h2 : p.is_2_by_2 = true
  · rw [if_pos h2] at h ⊢
    simp only [List.mem_cons, List.not_mem_nil, or_false, not_or] at h
    obtain ⟨ha, hb, hc, hd⟩ := h
    rw [getCell_setCell_ne (ne_pt hd), getCell_setCell_ne (ne_pt hc),
      getCell_setCell_ne (ne_pt hb), getCell_setCell_ne (ne_pt ha)]
  · rw [if_neg h2] at h ⊢
    by_cases hs : p.is_single = true
    · rw [if_pos hs] at h ⊢
      simp only [List.mem_cons, List.not_mem_nil, or_false, not_or] at h
      rw [getCell_setCell_ne (ne_pt h)]
    · rw [if_neg hs] at h ⊢
      by_cases hh : p.orientation = some 'h'
      · rw [if_pos hh] at h ⊢
        simp only [List.mem_cons, List.not_mem_nil, or_false, not_or] at h
        obtain ⟨ha, hb⟩ := h
        rw [getCell_setCell_ne (ne_pt hb), getCell_setCell_ne (ne_pt ha)]
      · rw [if_neg hh] at h ⊢
        simp only [List.mem_cons, List.not_mem_nil, or_false, not_or] at h
        obtain ⟨ha, hb⟩ := h
        by_cases hv : p.orientation = some 'v'
        · rw [if_pos hv]
          rw [getCell_setCell_ne (ne_pt hb), getCell_setCell_ne (ne_pt ha)]
        · rw [if_neg hv]

theorem inB_elim {hgt : Nat} {a b : Int} (h : inBoundsPtH hgt (a, b)) :
    0 ≤ a ∧ a < 4 ∧ 0 ≤ b ∧ b < (hgt : Int) := h

theorem read22 {g : Grid} {hgt : Nat} (hd : gridDims g hgt) {x y cx cy : Int}
    (hb : 0 ≤ cx ∧ cx < 4 ∧ 0 ≤ cy ∧ cy < (hgt : Int))
    (hc : (cx = x ∧ cy = y) ∨ (cx = x + 1 ∧ cy = y) ∨
          (cx = x ∧ cy = y + 1) ∨ (cx = x + 1 ∧ cy = y + 1)) :
    getCell (setCell (setCell (setCell (setCell g y x '1') y (x + 1) '1')
      (y + 1) x '1') (y + 1) (x + 1) '1') cy cx = '1' := by
  obtain ⟨hb1, hb2, hb3, hb4⟩ := hb
  rcases hc with ⟨hx, hy⟩ | ⟨hx, hy⟩ | ⟨hx, hy⟩ | ⟨hx, hy⟩ <;> subst hx <;> subst hy
  · rw [getCell_setCell_ne (by rintro ⟨u, v⟩; omega),
      getCell_setCell_ne (by rintro ⟨u, v⟩; omega),
      getCell_setCell_ne (by rintro ⟨u, v⟩; omega)]
    exact getCell_setCell_eq hd hb3 hb4 hb1 hb2 _
  · rw [getCell_setCell_ne (by rintro ⟨u, v⟩; omega),
      getCell_setCell_ne (by rintro ⟨u, v⟩; omega)]
    exact getCell_setCell_eq (setCell_dims hd _ _ _) hb3 hb4 hb1 hb2 _
  · rw [getCell_setCell_ne (by rintro ⟨u, v⟩; omega)]
    exact getCell_setCell_eq (setCell_dims (setCell_dims hd _ _ _) _ _ _) hb3 hb4 hb1 hb2 _
  · exact getCell_setCell_eq
      (setCell_dims (setCell_dims (setCell_dims hd _ _ _) _ _ _) _ _ _) hb3 hb4 hb1 hb2 _

theorem getCell_stampPiece_in {g : Grid} {hgt : Nat} (hd : gridDims g hgt) {p : Piece}
    (hwf : wfPiece p) (hb : pieceInBoundsH hgt p) {pt : Pos} (hin : pt ∈ footprint p) :
    getCell (stampPiece g p) pt.2 pt.1 = markerAt p pt := by
  obtain ⟨cx, cy⟩ := pt
  have hbd := inB_elim (hb _ hin)
  obtain ⟨hb1, hb2, hb3, hb4⟩ := hbd
  simp only [stampPiece, footprint, markerAt] at hin ⊢
  by_cases h2 : p.is_2_by_2 = true
  · rw [if_pos h2] at hin ⊢
    rw [if_pos h2]
    simp only [List.mem_cons, List.not_mem_nil, or_false, Prod.mk.injEq] at hin
    exact read22 hd ⟨hb1, hb2, hb3, hb4⟩ hin
  · rw [if_neg h2] at hin ⊢
    rw [if_neg h2]
    by_cases hs : p.is_single = true
    · rw [if_pos hs] at hin ⊢
      rw [if_pos hs]
      simp only [List.mem_cons, List.not_mem_nil, or_false, Prod.mk.injEq] at hin
      obtain ⟨hx, hy⟩ := hin
      subst hx; subst hy
      exact getCell_setCell_eq hd hb3 hb4 hb1 hb2 _
    · rw [if_neg hs] at hin ⊢
      rw [if_neg hs]
      by_cases hh : p.orientation = some 'h'
      · rw [if_pos hh] at hin ⊢
        rw [if_pos hh]
        simp only [List.mem_cons, List.not_mem_nil, or_false, Prod.mk.injEq] at hin
        rcases hin with ⟨hx, hy⟩ | ⟨hx, hy⟩ <;> subst hx <;> subst hy
        · rw [if_pos rfl, getCell_setCell_ne (by rintro ⟨u, v⟩; omega)]
          exact getCell_setCell_eq hd hb3 hb4 hb1 hb2 _
        · rw [if_neg (by simp only [Prod.mk.injEq]; rintro ⟨u, v⟩; omega)]
          exact getCell_setCell_eq (setCell_dims hd _ _ _) hb3 hb4 hb1 hb2 _
      · rw [if_neg hh] at hin ⊢
        rw [if_neg hh]
        have hv : p.orientation = some 'v' := by
          rcases hwf with hw | hw | hw | hw
          · exact absurd hw h2
          · exact absurd hw hs
          · exact absurd hw hh
          · exact hw
        rw [if_pos hv]
        simp only [List.mem_cons, List.not_mem_nil, or_false, Prod.mk.injEq] at hin
        rcases hin with ⟨hx, hy⟩ | ⟨hx, hy⟩ <;> subst hx <;> subst hy
        · rw [if_pos rfl, getCell_setCell_ne (by rintro ⟨u, v⟩; omega)]
          exact getCell_setCell_eq hd hb3 hb4 hb1 hb2 _
        · rw [if_neg (by simp only [Prod.mk.injEq]; rintro ⟨u, v⟩; omega)]
          exact getCell_setCell_eq (setCell_dims hd _ _ _) hb3 hb4 hb1 hb2 _

theorem foldl_stamp_dims {hgt : Nat} :
    ∀ (ps : List Piece) (g : Grid), gridDims g hgt →
      gridDims (ps.foldl stampPiece g) hgt := by
  intro ps
  induction ps with
  | nil => intro g hg; exact hg
  | cons p ps ih => intro g hg; exact ih _ (stampPiece_dims hg p)

theorem foldl_stamp_preserve {pt : Pos} :
    ∀ (ps : List Piece) (g : Grid), (∀ q ∈ ps, pt ∉ footprint q) →
      getCell (ps.foldl stampPiece g) pt.2 pt.1 = getCell g pt.2 pt.1 := by
  intro ps
  induction ps with
  | nil => intro g _; rfl
  | cons p ps ih =>
    intro g h
    have h1 : pt ∉ footprint p := h p (List.mem_cons_self _ _)
    have h2 : ∀ q ∈ ps, pt ∉ footprint q := fun q hq => h q (List.mem_cons_of_mem _ hq)
    calc getCell ((p :: ps).foldl stampPiece g) pt.2 pt.1
        = getCell (ps.foldl stampPiece (stampPiece g p)) pt.2 pt.1 := rfl
      _ = getCell (stampPiece g p) pt.2 pt.1 := ih _ h2
      _ = getCell g pt.2 pt.1 := getCell_stampPiece_notin h1

theorem foldl_stamp_in {hgt : Nat} {pt : Pos} {p : Piece} :
    ∀ (ps : List Piece) (g : Grid), gridDims g hgt →
      (∀ q ∈ ps, wfPiece q ∧ pieceInBoundsH hgt q) →
      List.Pairwise (fun a b => ∀ pt2 ∈ footprint a, pt2 ∉ footprint b) ps →
      p ∈ ps → pt ∈ footprint p →
      getCell (ps.foldl stampPiece g) pt.2 pt.1 = markerAt p pt := by
  intro ps
  induction ps with
  | nil => intro g _ _ _ hmem; exact absurd hmem (List.not_mem_nil _)
  | cons q ps ih =>
    intro g hd hwf hpw hmem hpt
    rcases List.mem_cons.mp hmem with rfl | hmem2
    · have hdisj : ∀ r ∈ ps, pt ∉ footprint r := by
        intro r hr
        exact (List.pairwise_cons.mp hpw).1 r hr pt hpt
      calc getCell ((p :: ps).foldl stampPiece g) pt.2 pt.1
          = getCell (ps.foldl stampPiece (stampPiece g p)) pt.2 pt.1 := rfl
        _ = getCell (stampPiece g p) pt.2 pt.1 := foldl_stamp_preserve _ _ hdisj
        _ = markerAt p pt :=
            getCell_stampPiece_in hd (hwf p (List.mem_cons_self _ _)).1
              (hwf p (List.mem_cons_self _ _)).2 hpt
    · exact ih (stampPiece g q) (stampPiece_dims hd q)
        (fun r hr => hwf r (List.mem_cons_of_mem _ hr))
        (List.pairwise_cons.mp hpw).2 hmem2 hpt

/-- From wfBoard: the values list is pairwise footprint-disjoint. -/
theorem wfBoard_pairwise {b : Board} (hwf : wfBoard b) :
    List.Pairwise (fun a b2 => ∀ pt2 ∈ footprint a, pt2 ∉ footprint b2)
      (dictValues b.pieces) := by
  obtain ⟨hall, hnd, hdisj⟩ := hwf
  have hkeys : List.Pairwise (fun e1 e2 : Pos × Piece => e1.1 ≠ e2.1) b.pieces :=
    List.pairwise_map.mp hnd
  have hpw : List.Pairwise
      (fun e1 e2 : Pos × Piece => ∀ pt2 ∈ footprint e1.2, pt2 ∉ footprint e2.2)
      b.pieces :=
    hkeys.imp_of_mem (fun h1 h2 hne => hdisj _ h1 _ h2 hne)
  exact List.pairwise_map.mpr hpw

/-- In a well-formed board, each footprint cell shows its piece's marker. -/
theorem update_grid_marker {b : Board} (hwf : wfBoard b) {e : Pos × Piece}
    (he : e ∈ b.pieces) {pt : Pos} (hpt : pt ∈ footprint e.2) :
    getCell b.update_grid pt.2 pt.1 = markerAt e.2 pt := by
  have hmem : e.2 ∈ dictValues b.pieces := List.mem_map_of_mem _ he
  exact foldl_stamp_in _ _ (blank_dims _)
    (fun q hq => by
      obtain ⟨e2, he2, rfl⟩ := List.mem_map.mp hq
      exact ⟨(hwf.1 e2 he2).1, (hwf.1 e2 he2).2.1⟩)
    (wfBoard_pairwise hwf) hmem hpt

/-- Cells outside every footprint show the blank content. -/
theorem update_grid_unstamped {b : Board} {pt : Pos}
    (h : ∀ e ∈ b.pieces, pt ∉ footprint e.2) :
    getCell b.update_grid pt.2 pt.1 =
      if 0 ≤ pt.2 ∧ pt.2 < (b.height : Int) ∧ 0 ≤ pt.1 ∧ pt.1 < 4 then char_empty
      else '*' := by
  have hall : ∀ q ∈ dictValues b.pieces, pt ∉ footprint q := by
    intro q hq
    obtain ⟨e2, he2, rfl⟩ := List.mem_map.mp hq
    exact h e2 he2
  calc getCell b.update_grid pt.2 pt.1
      = getCell (List.replicate b.height (List.replicate 4 char_empty)) pt.2 pt.1 :=
        foldl_stamp_preserve _ _ hall
    _ = _ := getCell_blank _ _ _

/-- For an in-bounds cell of a well-formed board, emptiness in the derived
grid is exactly absence from every footprint. -/
theorem update_grid_empty_iff {b : Board} (hwf : wfBoard b) {pt : Pos}
    (hin : inBoundsPtH b.height pt) :
    getCell b.update_grid pt.2 pt.1 = char_empty ↔
      ∀ e ∈ b.pieces, pt ∉ footprint e.2 := by
  constructor
  · intro hc e he hpt
    rw [update_grid_marker hwf he hpt] at hc
    exact markerAt_ne_empty _ _ hc
  · intro h
    rw [update_grid_unstamped h, if_pos ⟨hin.2.2.1, hin.2.2.2, hin.1, hin.2.1⟩]

theorem mem_guard {c : Prop} [Decidable c] {k a : Pos} :
    (k ∈ if c then [a] else ([] : List Pos)) ↔ k = a ∧ c := by
  split
  case isTrue h => simp [h]
  case isFalse h => simp [h]

theorem inb22 {hgt : Nat} {p : Piece} (h2 : p.is_2_by_2 = true)
    (hib : pieceInBoundsH hgt p) :
    0 ≤ p.coord_x ∧ p.coord_x + 1 < 4 ∧ 0 ≤ p.coord_y ∧ p.coord_y + 1 < (hgt : Int) := by
  have c1 := inB_elim (hib _ (show (p.coord_x, p.coord_y) ∈ footprint p by
    simp [footprint, h2]))
  have c4 := inB_elim (hib _ (show (p.coord_x + 1, p.coord_y + 1) ∈ footprint p by
    simp [footprint, h2]))
  omega

theorem inbSingle {hgt : Nat} {p : Piece} (h2 : p.is_2_by_2 = false)
    (hs : p.is_single = true) (hib : pieceInBoundsH hgt p) :
    0 ≤ p.coord_x ∧ p.coord_x < 4 ∧ 0 ≤ p.coord_y ∧ p.coord_y < (hgt : Int) := by
  have c1 := inB_elim (hib _ (show (p.coord_x, p.coord_y) ∈ footprint p by
    simp [footprint, h2, hs]))
  omega

theorem inbH {hgt : Nat} {p : Piece} (h2 : p.is_2_by_2 = false)
    (hs : p.is_single = false) (hh : p.orientation = some 'h')
    (hib : pieceInBoundsH hgt p) :
    0 ≤ p.coord_x ∧ p.coord_x + 1 < 4 ∧ 0 ≤ p.coord_y ∧ p.coord_y < (hgt : Int) := by
  have c1 := inB_elim (hib _ (show (p.coord_x, p.coord_y) ∈ footprint p by
    simp [footprint, h2, hs, hh]))
  have c2 := inB_elim (hib _ (show (p.coord_x + 1, p.coord_y) ∈ footprint p by
    simp [footprint, h2, hs, hh]))
  omega

theorem inbV {hgt : Nat} {p : Piece} (h2 : p.is_2_by_2 = false)
    (hs : p.is_single = false) (hh : ¬p.orientation = some 'h')
    (hib : pieceInBoundsH hgt p) :
    0 ≤ p.coord_x ∧ p.coord_x < 4 ∧ 0 ≤ p.coord_y ∧ p.coord_y + 1 < (hgt : Int) := by
  have c1 := inB_elim (hib _ (show (p.coord_x, p.coord_y) ∈ footprint p by
    simp [footprint, h2, hs, hh]))
  have c2 := inB_elim (hib _ (show (p.coord_x, p.coord_y + 1) ∈ footprint p by
    simp [footprint, h2, hs, hh]))
  omega

theorem destOK22 {b : Board} {p : Piece} (h2 : p.is_2_by_2 = true) {a c : Int}
    (h : 0 ≤ a ∧ a + 1 < 4 ∧ 0 ≤ c ∧ c + 1 < (b.height : Int)) :
    destOK b p (a, c) := by
  intro pt hpt
  simp only [footprint, movedTo, h2, if_true] at hpt
  simp only [List.mem_cons, List.not_mem_nil, or_false] at hpt
  rcases hpt with rfl | rfl | rfl | rfl <;>
    exact ⟨by omega, by omega, by omega, by omega⟩

theorem destOK22_elim {b : Board} {p : Piece} (h2 : p.is_2_by_2 = true) {a c : Int}
    (h : destOK b p (a, c)) :
    0 ≤ a ∧ a + 1 < 4 ∧ 0 ≤ c ∧ c + 1 < (b.height : Int) := by
  have u1 := inB_elim (h (a, c) (by simp [footprint, movedTo, h2]))
  have u4 := inB_elim (h (a + 1, c + 1) (by simp [footprint, movedTo, h2]))
  omega

theorem destOKSingle {b : Board} {p : Piece} (h2 : p.is_2_by_2 = false)
    (hs : p.is_single = true) {a c : Int}
    (h : 0 ≤ a ∧ a < 4 ∧ 0 ≤ c ∧ c < (b.height : Int)) :
    destOK b p (a, c) := by
  intro pt hpt
  simp [footprint, movedTo, h2, hs] at hpt
  rcases hpt with rfl
  exact ⟨by omega, by omega, by omega, by omega⟩

theorem destOKSingle_elim {b : Board} {p : Piece} (h2 : p.is_2_by_2 = false)
    (hs : p.is_single = true) {a c : Int} (h : destOK b p (a, c)) :
    0 ≤ a ∧ a < 4 ∧ 0 ≤ c ∧ c < (b.height : Int) := by
  have u1 := inB_elim (h (a, c) (by simp [footprint, movedTo, h2, hs]))
  omega

theorem destOKH {b : Board} {p : Piece} (h2 : p.is_2_by_2 = false)
    (hs : p.is_single = false) (hh : p.orientation = some 'h') {a c : Int}
    (h : 0 ≤ a ∧ a + 1 < 4 ∧ 0 ≤ c ∧ c < (b.height : Int)) :
    destOK b p (a, c) := by
  intro pt hpt
  simp [footprint, movedTo, h2, hs, hh] at hpt
  rcases hpt with rfl | rfl <;> exact ⟨by omega, by omega, by omega, by omega⟩

theorem destOKH_elim {b : Board} {p : Piece} (h2 : p.is_2_by_2 = false)
    (hs : p.is_single = false) (hh : p.orientation = some 'h') {a c : Int}
    (h : destOK b p (a, c)) :
    0 ≤ a ∧ a + 1 < 4 ∧ 0 ≤ c ∧ c < (b.height : Int) := by
  have u1 := inB_elim (h (a, c) (by simp [footprint, movedTo, h2, hs, hh]))
  have u2 := inB_elim (h (a + 1, c) (by simp [footprint, movedTo, h2, hs, hh]))
  omega

theorem destOKV {b : Board} {p : Piece} (h2 : p.is_2_by_2 = false)
    (hs : p.is_single = false) (hh : ¬p.orientation = some 'h') {a c : Int}
    (h : 0 ≤ a ∧ a < 4 ∧ 0 ≤ c ∧ c + 1 < (b.height : Int)) :
    destOK b p (a, c) := by
  intro pt hpt
  simp [footprint, movedTo, h2, hs, hh] at hpt
  rcases hpt with rfl | rfl <;> exact ⟨by omega, by omega, by omega, by omega⟩

theorem destOKV_elim {b : Board} {p : Piece} (h2 : p.is_2_by_2 = false)
    (hs : p.is_single = false) (hh : ¬p.orientation = some 'h') {a c : Int}
    (h : destOK b p (a, c)) :
    0 ≤ a ∧ a < 4 ∧ 0 ≤ c ∧ c + 1 < (b.height : Int) := by
  have u1 := inB_elim (h (a, c) (by simp [footprint, movedTo, h2, hs, hh]))
  have u2 := inB_elim (h (a, c + 1) (by simp [footprint, movedTo, h2, hs, hh]))
  omega

theorem newKeys_iff_22 {b : Board} {p : Piece} (h2 : p.is_2_by_2 = true)
    (hib : pieceInBoundsH b.height p) (k : Pos) :
    k ∈ newKeys b p ↔ specLegalDest b p k := by
  obtain ⟨hx0, hx1, hy0, hy1⟩ := inb22 h2 hib
  simp only [newKeys, specLegalDest, Board.width]
  rw [if_pos h2, if_pos h2]
  simp only [List.mem_append, mem_guard]
  constructor
  · rintro (((⟨hk, hg, he1, he2⟩ | ⟨hk, hg, he1, he2⟩) | ⟨hk, hg, he1, he2⟩) |
      ⟨hk, hg, he1, he2⟩)
    · refine Or.inl ⟨hk, ?_, he1, he2⟩
      rw [hk]
      exact destOK22 h2 ⟨by omega, by omega, by omega, by omega⟩
    · refine Or.inr (Or.inl ⟨hk, ?_, he1, he2⟩)
      rw [hk]
      exact destOK22 h2 ⟨by omega, by omega, by omega, by omega⟩
    · refine Or.inr (Or.inr (Or.inl ⟨hk, ?_, he1, he2⟩))
      rw [hk]
      exact destOK22 h2 ⟨by omega, by omega, by omega, by omega⟩
    · refine Or.inr (Or.inr (Or.inr ⟨hk, ?_, he1, he2⟩))
      rw [hk]
      exact destOK22 h2 ⟨by omega, by omega, by omega, by omega⟩
  · rintro (⟨hk, hdok, he1, he2⟩ | ⟨hk, hdok, he1, he2⟩ | ⟨hk, hdok, he1, he2⟩ |
      ⟨hk, hdok, he1, he2⟩)
    · rw [hk] at hdok
      have hb2 := destOK22_elim h2 hdok
      exact Or.inl (Or.inl (Or.inl ⟨hk, by omega, he1, he2⟩))
    · rw [hk] at hdok
      have hb2 := destOK22_elim h2 hdok
      exact Or.inl (Or.inl (Or.inr ⟨hk, by omega, he1, he2⟩))
    · rw [hk] at hdok
      have hb2 := destOK22_elim h2 hdok
      exact Or.inl (Or.inr ⟨hk, by omega, he1, he2⟩)
    · rw [hk] at hdok
      have hb2 := destOK22_elim h2 hdok
      exact Or.inr ⟨hk, by omega, he1, he2⟩

theorem newKeys_iff_single {b : Board} {p : Piece} (h2 : p.is_2_by_2 = false)
    (hs : p.is_single = true) (hib : pieceInBoundsH b.height p) (k : Pos) :
    k ∈ newKeys b p ↔ specLegalDest b p k := by
  obtain ⟨hx0, hx1, hy0, hy1⟩ := inbSingle h2 hs hib
  simp only [newKeys, specLegalDest, Board.width, h2, Bool.false_eq_true, if_false]
  rw [if_pos hs, if_pos hs]
  simp only [List.mem_append, mem_guard]
  constructor
  · rintro (((⟨hk, hg, he⟩ | ⟨hk, hg, he⟩) | ⟨hk, hg, he⟩) | ⟨hk, hg, he⟩)
    · refine ⟨Or.inl hk, ?_, ?_⟩
      · rw [hk]
        exact destOKSingle h2 hs ⟨by omega, by omega, by omega, by omega⟩
      · rw [hk]
        exact he
    · refine ⟨Or.inr (Or.inl hk), ?_, ?_⟩
      · rw [hk]
        exact destOKSingle h2 hs ⟨by omega, by omega, by omega, by omega⟩
      · rw [hk]
        exact he
    · refine ⟨Or.inr (Or.inr (Or.inl hk)), ?_, ?_⟩
      · rw [hk]
        exact destOKSingle h2 hs ⟨by omega, by omega, by omega, by omega⟩
      · rw [hk]
        exact he
    · refine ⟨Or.inr (Or.inr (Or.inr hk)), ?_, ?_⟩
      · rw [hk]
        exact destOKSingle h2 hs ⟨by omega, by omega, by omega, by omega⟩
      · rw [hk]
        exact he
  · rintro ⟨hks, hdok, he⟩
    rcases hks with rfl | rfl | rfl | rfl
    · have hb2 := destOKSingle_elim h2 hs hdok
      exact Or.inl (Or.inl (Or.inl ⟨rfl, by omega, he⟩))
    · have hb2 := destOKSingle_elim h2 hs hdok
      exact Or.inl (Or.inl (Or.inr ⟨rfl, by omega, he⟩))
    · have hb2 := destOKSingle_elim h2 hs hdok
      exact Or.inl (Or.inr ⟨rfl, by omega, he⟩)
    · have hb2 := destOKSingle_elim h2 hs hdok
      exact Or.inr ⟨rfl, by omega, he⟩

theorem newKeys_iff_h {b : Board} {p : Piece} (h2 : p.is_2_by_2 = false)
    (hs : p.is_single = false) (hh : p.orientation = some 'h')
    (hib : pieceInBoundsH b.height p) (k : Pos) :
    k ∈ newKeys b p ↔ specLegalDest b p k := by
  obtain ⟨hx0, hx1, hy0, hy1⟩ := inbH h2 hs hh hib
  simp only [newKeys, specLegalDest, Board.width, h2, hs, Bool.false_eq_true, if_false]
  rw [if_pos hh, if_pos hh]
  simp only [List.mem_append, mem_guard]
  constructor
  · rintro (((⟨hk, hg, he1⟩ | ⟨hk, hg, he1, he2⟩) | ⟨hk, hg, he1⟩) |
      ⟨hk, hg, he1, he2⟩)
    · refine Or.inl ⟨hk, ?_, he1⟩
      rw [hk]
      exact destOKH h2 hs hh ⟨by omega, by omega, by omega, by omega⟩
    · refine Or.inr (Or.inl ⟨hk, ?_, he1, he2⟩)
      rw [hk]
      exact destOKH h2 hs hh ⟨by omega, by omega, by omega, by omega⟩
    · refine Or.inr (Or.inr (Or.inl ⟨hk, ?_, he1⟩))
      rw [hk]
      exact destOKH h2 hs hh ⟨by omega, by omega, by omega, by omega⟩
    · refine Or.inr (Or.inr (Or.inr ⟨hk, ?_, he1, he2⟩))
      rw [hk]
      exact destOKH h2 hs hh ⟨by omega, by omega, by omega, by omega⟩
  · rintro (⟨hk, hdok, he1⟩ | ⟨hk, hdok, he1, he2⟩ | ⟨hk, hdok, he1⟩ |
      ⟨hk, hdok, he1, he2⟩)
    · rw [hk] at hdok
      have hb2 := destOKH_elim h2 hs hh hdok
      exact Or.inl (Or.inl (Or.inl ⟨hk, by omega, he1⟩))
    · rw [hk] at hdok
      have hb2 := destOKH_elim h2 hs hh hdok
      exact Or.inl (Or.inl (Or.inr ⟨hk, by omega, he1, he2⟩))
    · rw [hk] at hdok
      have hb2 := destOKH_elim h2 hs hh hdok
      exact Or.inl (Or.inr ⟨hk, by omega, he1⟩)
    · rw [hk] at hdok
      have hb2 := destOKH_elim h2 hs hh hdok
      exact Or.inr ⟨hk, by omega, he1, he2⟩

theorem newKeys_iff_v {b : Board} {p : Piece} (h2 : p.is_2_by_2 = false)
    (hs : p.is_single = false) (hh : ¬p.orientation = some 'h')
    (hib : pieceInBoundsH b.height p) (k : Pos) :
    k ∈ newKeys b p ↔ specLegalDest b p k := by
  obtain ⟨hx0, hx1, hy0, hy1⟩ := inbV h2 hs hh hib
  simp only [newKeys, specLegalDest, Board.width, h2, hs, Bool.false_eq_true, if_false]
  rw [if_neg hh, if_neg hh]
  simp only [List.mem_append, mem_guard]
  constructor
  · rintro (((⟨hk, hg, he1, he2⟩ | ⟨hk, hg, he1⟩) | ⟨hk, hg, he1, he2⟩) |
      ⟨hk, hg, he1⟩)
    · refine Or.inl ⟨hk, ?_, he1, he2⟩
      rw [hk]
      exact destOKV h2 hs hh ⟨by omega, by omega, by omega, by omega⟩
    · refine Or.inr (Or.inl ⟨hk, ?_, he1⟩)
      rw [hk]
      exact destOKV h2 hs hh ⟨by omega, by omega, by omega, by omega⟩
    · refine Or.inr (Or.inr (Or.inl ⟨hk, ?_, he1, he2⟩))
      rw [hk]
      exact destOKV h2 hs hh ⟨by omega, by omega, by omega, by omega⟩
    · refine Or.inr (Or.inr (Or.inr ⟨hk, ?_, he1⟩))
      rw [hk]
      exact destOKV h2 hs hh ⟨by omega, by omega, by omega, by omega⟩
  · rintro (⟨hk, hdok, he1, he2⟩ | ⟨hk, hdok, he1⟩ | ⟨hk, hdok, he1, he2⟩ |
      ⟨hk, hdok, he1⟩)
    · rw [hk] at hdok
      have hb2 := destOKV_elim h2 hs hh hdok
      exact Or.inl (Or.inl (Or.inl ⟨hk, by omega, he1, he2⟩))
    · rw [hk] at hdok
      have hb2 := destOKV_elim h2 hs hh hdok
      exact Or.inl (Or.inl (Or.inr ⟨hk, by omega, he1⟩))
    · rw [hk] at hdok
      have hb2 := destOKV_elim h2 hs hh hdok
      exact Or.inl (Or.inr ⟨hk, by omega, he1, he2⟩)
    · rw [hk] at hdok
      have hb2 := destOKV_elim h2 hs hh hdok
      exact Or.inr ⟨hk, by omega, he1⟩

theorem specLegal_destOK {b : Board} {p : Piece} {k : Pos}
    (h : specLegalDest b p k) : destOK b p k := by
  unfold specLegalDest at h
  split at h
  · rcases h with ⟨_, hd, _⟩ | ⟨_, hd, _⟩ | ⟨_, hd, _⟩ | ⟨_, hd, _⟩ <;> exact hd
  · split at h
    · exact h.2.1
    · split at h
      · rcases h with ⟨_, hd, _⟩ | ⟨_, hd, _⟩ | ⟨_, hd, _⟩ | ⟨_, hd, _⟩ <;> exact hd
      · rcases h with ⟨_, hd, _⟩ | ⟨_, hd, _⟩ | ⟨_, hd, _⟩ | ⟨_, hd, _⟩ <;> exact hd

/-- C1: for every Board and Piece whose footprint lies inside the board,
the move generator returns exactly the spec's set of legal single-slide
destination top-left coordinates: per-shape leading-edge emptiness rules
together with containment of the destination footprint in
[0, width) x [0, height) (so in particular every returned destination is
in bounds, out-of-bounds destinations being excluded before any
occupancy test is consulted). -/
theorem claim_C1 (b : Board) (p : Piece) (hib : pieceInBoundsH b.height p) :
    (∀ k, k ∈ newKeys b p ↔ specLegalDest b p k) ∧
    (∀ k ∈ newKeys b p, destOK b p k) := by
  have hiff : ∀ k, k ∈ newKeys b p ↔ specLegalDest b p k := by
    by_cases h2 : p.is_2_by_2 = true
    · exact newKeys_iff_22 h2 hib
    · have h2f : p.is_2_by_2 = false := by
        revert h2; cases p.is_2_by_2 <;> simp
      by_cases hs : p.is_single = true
      · exact newKeys_iff_single h2f hs hib
      · have hsf : p.is_single = false := by
          revert hs; cases p.is_single <;> simp
        by_cases hh : p.orientation = some 'h'
        · exact newKeys_iff_h h2f hsf hh hib
        · exact newKeys_iff_v h2f hsf hh hib
  exact ⟨hiff, fun k hk => specLegal_destOK ((hiff k).mp hk)⟩

theorem claim_C1_witness :
    ((0, 0) ∈ newKeys cOneB cOneP ↔ specLegalDest cOneB cOneP (0, 0)) ∧
    destOK cOneB cOneP (0, 0) :=
  ⟨(claim_C1 cOneB cOneP (by decide)).1 (0, 0),
   (claim_C1 cOneB cOneP (by decide)).2 (0, 0) (by decide)⟩

/- ==============  association-list (dict) lemmas  ============== -/

theorem dictGet_eq_none_iff {K V : Type} [DecidableEq K] {l : List (K × V)} {k : K} :
    dictGet l k = none ↔ k ∉ dictKeys l := by
  induction l with
  | nil => simp [dictGet, dictKeys]
  | cons e rest ih =>
    have hk : dictKeys (e :: rest) = e.1 :: dictKeys rest := rfl
    rw [dictGet, hk]
    by_cases he : e.1 = k
    · rw [if_pos he]
      simp [he]
    · rw [if_neg he, ih]
      constructor
      · intro h hor
        rcases List.mem_cons.mp hor with h1 | h2
        · exact he h1.symm
        · exact h h2
      · intro h h2
        exact h (List.mem_cons_of_mem _ h2)

theorem dictGet_mem {K V : Type} [DecidableEq K] {l : List (K × V)} {k : K} {v : V}
    (h : dictGet l k = some v) : (k, v) ∈ l := by
  induction l with
  | nil => simp [dictGet] at h
  | cons e rest ih =>
    by_cases he : e.1 = k
    · rw [dictGet, if_pos he] at h
      have hv : e.2 = v := Option.some.inj h
      have hekv : e = (k, v) := by
        obtain ⟨a, b2⟩ := e
        simp only at he hv
        rw [← he, ← hv]
      rw [← hekv]
      exact List.mem_cons_self _ _
    · rw [dictGet, if_neg he] at h
      exact List.mem_cons_of_mem _ (ih h)

theorem dictGet_split {K V : Type} [DecidableEq K] {l : List (K × V)} {k : K} {v : V}
    (h : dictGet l k = some v) :
    ∃ l1 l2, l = l1 ++ (k, v) :: l2 ∧ dictRemove l k = l1 ++ l2 ∧
      ∀ e ∈ l1, e.1 ≠ k := by
  induction l with
  | nil => simp [dictGet] at h
  | cons e rest ih =>
    by_cases he : e.1 = k
    · rw [dictGet, if_pos he] at h
      have hv : e.2 = v := Option.some.inj h
      have hekv : e = (k, v) := by
        obtain ⟨a, b2⟩ := e
        simp only at he hv
        rw [← he, ← hv]
      refine ⟨[], rest, ?_, ?_, by simp⟩
      · rw [List.nil_append, ← hekv]
      · rw [dictRemove, if_pos he, List.nil_append]
    · rw [dictGet, if_neg he] at h
      obtain ⟨l1, l2, hsplit, hrem, hl1⟩ := ih h
      refine ⟨e :: l1, l2, ?_, ?_, ?_⟩
      · rw [List.cons_append, ← hsplit]
      · rw [dictRemove, if_neg he, hrem, List.cons_append]
      · intro e2 he2
        rcases List.mem_cons.mp he2 with rfl | hm
        · exact he
        · exact hl1 _ hm

theorem dictInsert_notmem {K V : Type} [DecidableEq K] {l : List (K × V)} {k : K}
    (h : dictGet l k = none) (v : V) : dictInsert l k v = l ++ [(k, v)] := by
  induction l with
  | nil => rfl
  | cons e rest ih =>
    by_cases he : e.1 = k
    · rw [dictGet, if_pos he] at h
      exact absurd h (by simp)
    · rw [dictGet, if_neg he] at h
      rw [dictInsert, if_neg he, ih h]
      rfl

theorem dictGet_insert_self {K V : Type} [DecidableEq K] (l : List (K × V)) (k : K)
    (v : V) : dictGet (dictInsert l k v) k = some v := by
  induction l with
  | nil => simp [dictInsert, dictGet]
  | cons e rest ih =>
    by_cases he : e.1 = k
    · rw [dictInsert, if_pos he, dictGet, if_pos rfl]
    · rw [dictInsert, if_neg he, dictGet, if_neg he]
      exact ih

theorem dictGet_insert_ne {K V : Type} [DecidableEq K] (l : List (K × V)) {k k2 : K}
    (h : k2 ≠ k) (v : V) : dictGet (dictInsert l k v) k2 = dictGet l k2 := by
  induction l with
  | nil =>
    have hstep : dictGet (dictInsert [] k v) k2 = if k = k2 then some v else none := rfl
    rw [hstep, if_neg (fun hh => h hh.symm)]
    rfl
  | cons e rest ih =>
    by_cases he : e.1 = k
    · rw [dictInsert, if_pos he, dictGet, dictGet]
      have h1 : ¬((k, v) : K × V).1 = k2 := fun hh => h hh.symm
      have h2 : ¬e.1 = k2 := by rw [he]; exact fun hh => h hh.symm
      rw [if_neg h1, if_neg h2]
    · rw [dictInsert, if_neg he, dictGet, dictGet]
      split
      · rfl
      · exact ih

theorem dictGet_remove_ne {K V : Type} [DecidableEq K] (l : List (K × V)) {k k2 : K}
    (h : k2 ≠ k) : dictGet (dictRemove l k) k2 = dictGet l k2 := by
  induction l with
  | nil => rfl
  | cons e rest ih =>
    by_cases he : e.1 = k
    · rw [dictRemove, if_pos he, dictGet, if_neg (by rw [he]; exact fun hh => h hh.symm)]
    · rw [dictRemove, if_neg he, dictGet, dictGet]
      split
      · rfl
      · exact ih

theorem dictKeys_append {K V : Type} (l1 l2 : List (K × V)) :
    dictKeys (l1 ++ l2) = dictKeys l1 ++ dictKeys l2 := by
  simp [dictKeys]

theorem dictValues_append {K V : Type} (l1 l2 : List (K × V)) :
    dictValues (l1 ++ l2) = dictValues l1 ++ dictValues l2 := by
  simp [dictValues]

theorem dictGet_remove_self_nodup {K V : Type} [DecidableEq K] {l : List (K × V)}
    {k : K} (hnd : (dictKeys l).Nodup) :
    dictGet (dictRemove l k) k = none := by
  induction l with
  | nil => rfl
  | cons e rest ih =>
    rw [dictKeys] at hnd
    simp only [List.map_cons, List.nodup_cons] at hnd
    by_cases he : e.1 = k
    · rw [dictRemove, if_pos he, dictGet_eq_none_iff]
      rw [he] at hnd
      exact hnd.1
    · rw [dictRemove, if_neg he, dictGet, if_neg he]
      exact ih hnd.2

theorem stampPiece_uid (g : Grid) (p : Piece) (u : Nat) :
    stampPiece g { p with uid := u } = stampPiece g p := by
  cases p
  rfl

theorem update_grid_relabel (f : Nat → Nat) (b : Board) :
    (relabel f b).update_grid = b.update_grid := by
  have key : ∀ (l : List (Pos × Piece)) (g : Grid),
      ((l.map (fun e => (e.1, { e.2 with uid := f e.2.uid }))).map Prod.snd).foldl
        stampPiece g = (l.map Prod.snd).foldl stampPiece g := by
    intro l
    induction l with
    | nil => intro g; rfl
    | cons e t ih =>
      intro g
      simp only [List.map_cons, List.foldl_cons]
      rw [stampPiece_uid]
      exact ih _
  unfold Board.update_grid relabel dictValues
  exact key _ _

/-- C5: Board equality is exactly equality of the rendered grids: two
Boards compare equal iff their derived grids coincide as symbol arrays;
comparison against a non-Board value is always False; and renaming piece
identities (uids) never changes the comparison, so two structurally
identical layouts are equal whatever pieces occupy the slots. -/
theorem claim_C5 :
    (∀ a b : Board, Board.pyEq a (PyValue.board b) = true ↔
      a.update_grid = b.update_grid) ∧
    (∀ a : Board, Board.pyEq a PyValue.other = false) ∧
    (∀ (a : Board) (f : Nat → Nat), Board.pyEq a (PyValue.board (relabel f a)) = true) := by
  refine ⟨?_, ?_, ?_⟩
  · intro a b
    simp [Board.pyEq]
  · intro a
    rfl
  · intro a f
    simp [Board.pyEq, update_grid_relabel]

/-- C4 counterexample: on a board with two singles keyed (0,0) and (1,0),
copy_board with newPosition (1,0) for the piece at (0,0) silently
overwrites the other piece's dict entry: the clone has one piece where
the source has two, so piece count (and the uid set) is not preserved for
arbitrary newPosition. -/
theorem claim_C4_counterexample :
    (cFourB.copy_board (1, 0) (0, 0)).map (fun b2 => b2.pieces.length) = some 1 ∧
    cFourB.pieces.length = 2 := by
  decide

/-- C4 (amended): provided newPosition is not the key of a different
piece (it may coincide with oldPosition), copy_board returns a Board with
the same height and goal dict whose mapping holds the moved piece at
newPosition with its coordinates set to newPosition, leaves the entry of
every other key unchanged, preserves the piece count, and preserves the
multiset of piece identities.  (The clone's records are fresh copies and
the grid is re-derived from the updated mapping by construction of the
embedding; the source board value is unchanged.) -/
theorem claim_C4 (b : Board) (new_key old : Pos) (p : Piece)
    (hnd : (dictKeys b.pieces).Nodup)
    (hold : dictGet b.pieces old = some p)
    (hfresh : new_key = old ∨ dictGet b.pieces new_key = none) :
    ∃ b2, b.copy_board new_key old = some b2 ∧
      b2.height = b.height ∧
      b2.goal_board_dict = b.goal_board_dict ∧
      dictGet b2.pieces new_key =
        some { p with coord_x := new_key.1, coord_y := new_key.2 } ∧
      (∀ k, k ≠ old → k ≠ new_key → dictGet b2.pieces k = dictGet b.pieces k) ∧
      b2.pieces.length = b.pieces.length ∧
      List.Perm ((dictValues b2.pieces).map Piece.uid)
        ((dictValues b.pieces).map Piece.uid) := by
  obtain ⟨l1, l2, hsplit, hrem, hl1⟩ := dictGet_split hold
  have hnone2 : dictGet (dictRemove b.pieces old) new_key = none := by
    rcases hfresh with rfl | hnone
    · exact dictGet_remove_self_nodup hnd
    · by_cases hno : new_key = old
      · subst hno
        exact dictGet_remove_self_nodup hnd
      · rw [dictGet_remove_ne _ hno]
        exact hnone
  have hpieces : dictInsert (dictRemove b.pieces old) new_key
      { p with coord_x := new_key.1, coord_y := new_key.2 } =
      (l1 ++ l2) ++ [(new_key, { p with coord_x := new_key.1, coord_y := new_key.2 })] := by
    rw [dictInsert_notmem hnone2, hrem]
  refine ⟨{ height := b.height,
            pieces := dictInsert (dictRemove b.pieces old) new_key
              { p with coord_x := new_key.1, coord_y := new_key.2 },
            goal_board_dict := b.goal_board_dict },
    ?_, rfl, rfl, dictGet_insert_self _ _ _, ?_, ?_, ?_⟩
  · unfold Board.copy_board
    rw [hold]
    rfl
  · intro k hko hkn
    show dictGet (dictInsert (dictRemove b.pieces old) new_key
      { p with coord_x := new_key.1, coord_y := new_key.2 }) k = dictGet b.pieces k
    rw [dictGet_insert_ne _ hkn, dictGet_remove_ne _ hko]
  · show (dictInsert (dictRemove b.pieces old) new_key
      { p with coord_x := new_key.1, coord_y := new_key.2 }).length = b.pieces.length
    rw [hpieces, hsplit]
    simp
  · show List.Perm ((dictValues (dictInsert (dictRemove b.pieces old) new_key
      { p with coord_x := new_key.1, coord_y := new_key.2 })).map Piece.uid)
      ((dictValues b.pieces).map Piece.uid)
    rw [hpieces, hsplit]
    unfold dictValues
    simp only [List.map_append, List.map_cons, List.map_map]
    rw [List.append_assoc]
    refine List.Perm.append_left _ ?_
    exact List.perm_append_singleton _ _

theorem claim_C4_witness :
    (cFourB.copy_board (2, 0) (0, 0)).map (fun b2 => b2.pieces.length) = some 2 := by
  obtain ⟨b2, he, _, _, _, _, hlen, _⟩ :=
    claim_C4 cFourB (2, 0) (0, 0) cFourP1 (by decide) (by decide) (Or.inr (by decide))
  rw [he]
  have h2 : cFourB.pieces.length = 2 := rfl
  simp [hlen, h2]

/-- C7 counterexample: a board whose horizontal piece (cells (0,0),(1,0))
and single piece (cell (1,0)) overlap at (1,0).  update_grid does not
fail on this overlap: it still produces a grid, the later-stamped single
overwriting the shared cell. -/
theorem claim_C7_counterexample :
    ((1, 0) ∈ footprint cSevenH) ∧ ((1, 0) ∈ footprint cSevenS) ∧
    cSevenB.update_grid = [['<', '2', '.', '.']] := by
  decide

/-- C7 (amended): update_grid stamps each piece's shape-specific
footprint onto a blank width-by-height grid of empty symbols (a 2x2 block
as four 1 cells, a single as one 2 cell, a horizontal as a < > pair, a
vertical as a ^ v pair): on a board whose pieces are recognized shapes,
in bounds, and pairwise non-overlapping, every footprint cell shows its
piece's marker and every other in-bounds cell shows the empty symbol.
When two footprints do overlap, update_grid does not fail as the claim
states: it still produces a grid, later-stamped pieces overwriting
earlier ones (claim_C7_counterexample). -/
theorem claim_C7 (b : Board) (hwf : wfBoard b) :
    (∀ e ∈ b.pieces, ∀ pt ∈ footprint e.2,
      getCell b.update_grid pt.2 pt.1 = markerAt e.2 pt) ∧
    (∀ pt : Pos, inBoundsPtH b.height pt → (∀ e ∈ b.pieces, pt ∉ footprint e.2) →
      getCell b.update_grid pt.2 pt.1 = char_empty) := by
  constructor
  · intro e he pt hpt
    exact update_grid_marker hwf he hpt
  · intro pt hin hnot
    rw [update_grid_unstamped hnot, if_pos ⟨hin.2.2.1, hin.2.2.2, hin.1, hin.2.1⟩]

theorem claim_C7_witness :
    getCell cOneB.update_grid 0 1 = markerAt cOneP (1, 0) ∧
    getCell cOneB.update_grid 0 0 = char_empty :=
  ⟨(claim_C7 cOneB (by decide)).1 ((1, 0), cOneP) (by decide) (1, 0) (by decide),
   (claim_C7 cOneB (by decide)).2 (0, 0) (by decide) (by decide)⟩

/- ==============  successor characterization machinery  ============== -/

theorem optMap_eq_some {α β : Type} {f : α → Option β} :
    ∀ {l : List α} {r : List β},
      optMap f l = some r ↔ List.Forall₂ (fun a b2 => f a = some b2) l r := by
  intro l
  induction l with
  | nil =>
    intro r
    constructor
    · intro h
      obtain rfl := Option.some.inj h
      exact List.Forall₂.nil
    · intro h
      cases h
      rfl
  | cons a t ih =>
    intro r
    constructor
    · intro h
      unfold optMap at h
      cases hfa : f a with
      | none => rw [hfa] at h; cases h
      | some b2 =>
        rw [hfa] at h
        cases hr : optMap f t with
        | none => rw [hr] at h; cases h
        | some rs =>
          rw [hr] at h
          obtain rfl := Option.some.inj h
          exact List.Forall₂.cons hfa (ih.mp hr)
    · intro h
      cases h with
      | cons hab htail =>
        unfold optMap
        rw [hab, ih.mpr htail]
        rfl

theorem forall2_mem_right {α β : Type} {R : α → β → Prop} :
    ∀ {l : List α} {r : List β}, List.Forall₂ R l r → ∀ b2 ∈ r, ∃ a ∈ l, R a b2 := by
  intro l r h
  induction h with
  | nil => intro b2 hb2; cases hb2
  | cons hab _ ih =>
    intro b2 hb2
    rcases List.mem_cons.mp hb2 with rfl | hm
    · exact ⟨_, List.mem_cons_self _ _, hab⟩
    · obtain ⟨a2, ha2, hr⟩ := ih _ hm
      exact ⟨a2, List.mem_cons_of_mem _ ha2, hr⟩

theorem forall2_mem_left {α β : Type} {R : α → β → Prop} :
    ∀ {l : List α} {r : List β}, List.Forall₂ R l r → ∀ a ∈ l, ∃ b2 ∈ r, R a b2 := by
  intro l r h
  induction h with
  | nil => intro a ha; cases ha
  | cons hab _ ih =>
    intro a ha
    rcases List.mem_cons.mp ha with rfl | hm
    · exact ⟨_, List.mem_cons_self _ _, hab⟩
    · obtain ⟨b2, hb2, hr⟩ := ih _ hm
      exact ⟨b2, List.mem_cons_of_mem _ hb2, hr⟩

theorem optMap_isSome {α β : Type} {f : α → Option β} :
    ∀ {l : List α}, (∀ a ∈ l, ∃ b2, f a = some b2) → ∃ r, optMap f l = some r := by
  intro l
  induction l with
  | nil => intro _; exact ⟨[], rfl⟩
  | cons a t ih =>
    intro h
    obtain ⟨b2, hb2⟩ := h a (List.mem_cons_self _ _)
    obtain ⟨r, hr⟩ := ih (fun a2 ha2 => h a2 (List.mem_cons_of_mem _ ha2))
    refine ⟨b2 :: r, ?_⟩
    unfold optMap
    rw [hb2, hr]
    rfl

/-- Every member of the successor list arises from some piece and one of
its generated keys via mkSucc. -/
theorem generate_successors_mem {s : State} {L : List State}
    (h : s.generate_successors = some L) :
    ∀ t ∈ L, ∃ p ∈ dictValues s.board.pieces, ∃ k ∈ newKeys s.board p,
      mkSucc s p k = some t := by
  unfold State.generate_successors at h
  cases hgroups : optMap (fun piece => optMap (mkSucc s piece) (newKeys s.board piece))
      (dictValues s.board.pieces) with
  | none =>
    rw [hgroups] at h
    simp only [Option.bind_eq_bind, Option.none_bind] at h
    cases h
  | some gs =>
    rw [hgroups] at h
    simp only [Option.bind_eq_bind, Option.some_bind, Option.pure_def] at h
    obtain rfl := Option.some.inj h
    intro t ht
    obtain ⟨grp, hgrp, htg⟩ := List.mem_flatten.mp ht
    obtain ⟨p, hp, hpg⟩ := forall2_mem_right (optMap_eq_some.mp hgroups) _ hgrp
    obtain ⟨k, hk, hmk⟩ := forall2_mem_right (optMap_eq_some.mp hpg) _ htg
    exact ⟨p, hp, k, hk, hmk⟩

/-- Inversion of mkSucc. -/
theorem mkSucc_eq {s : State} {p : Piece} {k : Pos} {t : State}
    (h : mkSucc s p k = some t) :
    ∃ dict gp b2, s.board.goal_board_dict = some dict ∧
      dictGet dict p.uid = some gp ∧
      s.board.copy_board k (p.coord_x, p.coord_y) = some b2 ∧
      t = State.mk b2
        ((s.hfn - (|p.coord_x - gp.coord_x| + |p.coord_y - gp.coord_y|)) +
          (|k.1 - gp.coord_x| + |k.2 - gp.coord_y|))
        s.f (s.depth + 1) (some s) := by
  unfold mkSucc at h
  cases hdict : s.board.goal_board_dict with
  | none =>
    rw [hdict] at h
    simp only [Option.bind_eq_bind, Option.none_bind] at h
    cases h
  | some dict =>
    rw [hdict] at h
    simp only [Option.bind_eq_bind, Option.some_bind] at h
    cases hgp : dictGet dict p.uid with
    | none =>
      rw [hgp] at h
      simp only [Option.bind_eq_bind, Option.none_bind] at h
      cases h
    | some gp =>
      rw [hgp] at h
      simp only [Option.bind_eq_bind, Option.some_bind] at h
      cases hcb : s.board.copy_board k (p.coord_x, p.coord_y) with
      | none =>
        rw [hcb] at h
        simp only [Option.bind_eq_bind, Option.none_bind] at h
        cases h
      | some b2 =>
        rw [hcb] at h
        simp only [Option.bind_eq_bind, Option.some_bind, Option.pure_def] at h
        obtain rfl := Option.some.inj h
        exact ⟨dict, gp, b2, rfl, hgp, rfl, rfl⟩

/-- Inversion of copy_board. -/
theorem copy_board_eq {b : Board} {new_key old : Pos} {b2 : Board}
    (h : b.copy_board new_key old = some b2) :
    ∃ p, dictGet b.pieces old = some p ∧
      b2 = { height := b.height,
             pieces := dictInsert (dictRemove b.pieces old) new_key
               { p with coord_x := new_key.1, coord_y := new_key.2 },
             goal_board_dict := b.goal_board_dict } := by
  unfold Board.copy_board at h
  cases hp : dictGet b.pieces old with
  | none =>
    rw [hp] at h
    simp only [Option.bind_eq_bind, Option.none_bind] at h
    cases h
  | some p =>
    rw [hp] at h
    simp only [Option.bind_eq_bind, Option.some_bind, Option.pure_def] at h
    obtain rfl := Option.some.inj h
    exact ⟨p, rfl, rfl⟩

theorem topleft_mem_footprint (p : Piece) : (p.coord_x, p.coord_y) ∈ footprint p := by
  unfold footprint
  repeat' split
  all_goals simp

theorem key_mem_footprint_movedTo (p : Piece) (k : Pos) :
    k ∈ footprint (movedTo p k) := by
  obtain ⟨k1, k2⟩ := k
  exact topleft_mem_footprint (movedTo p (k1, k2))

theorem dictGet_of_mem_nodup {K V : Type} [DecidableEq K] {l : List (K × V)} {k : K}
    {v : V} (hm : (k, v) ∈ l) (hnd : (dictKeys l).Nodup) : dictGet l k = some v := by
  induction l with
  | nil => cases hm
  | cons e rest ih =>
    have hnd2 : (e.1 :: dictKeys rest).Nodup := hnd
    rcases List.mem_cons.mp hm with rfl | hm2
    · rw [dictGet, if_pos rfl]
    · have hkmem : k ∈ dictKeys rest := by
        have := List.mem_map_of_mem Prod.fst hm2
        exact this
      have hne : e.1 ≠ k := by
        intro hcontra
        rw [hcontra] at hnd2
        exact (List.nodup_cons.mp hnd2).1 hkmem
      rw [dictGet, if_neg hne]
      exact ih hm2 (List.nodup_cons.mp hnd2).2

/-- Every generated key differs from the piece's current top-left, and
every cell of the moved footprint is either a cell of the old footprint
or was checked empty in the grid. -/
theorem newKeys_footprint {b : Board} {p : Piece} {k : Pos} (hk : k ∈ newKeys b p) :
    k ≠ (p.coord_x, p.coord_y) ∧
    ∀ pt ∈ footprint (movedTo p k),
      pt ∈ footprint p ∨ getCell b.update_grid pt.2 pt.1 = char_empty := by
  simp only [newKeys, Board.width] at hk
  by_cases h2 : p.is_2_by_2 = true
  · rw [if_pos h2] at hk
    simp only [List.mem_append, mem_guard] at hk
    rcases hk with (((⟨rfl, hg, he1, he2⟩ | ⟨rfl, hg, he1, he2⟩) | ⟨rfl, hg, he1, he2⟩) |
        ⟨rfl, hg, he1, he2⟩) <;>
      refine ⟨fun hc => by rw [Prod.mk.injEq] at hc; omega, fun pt hpt => ?_⟩ <;>
      simp [footprint, movedTo, h2] at hpt <;>
      (rcases hpt with rfl | rfl | rfl | rfl <;>
        first
        | exact Or.inr he1
        | exact Or.inr he2
        | (refine Or.inr ?_; convert he1 using 2 <;> omega)
        | (refine Or.inr ?_; convert he2 using 2 <;> omega)
        | exact Or.inl (by simp [footprint, h2, Prod.mk.injEq] <;> omega))
  · rw [if_neg h2] at hk
    by_cases hs : p.is_single = true
    · rw [if_pos hs] at hk
      simp only [List.mem_append, mem_guard] at hk
      rcases hk with (((⟨rfl, hg, he1⟩ | ⟨rfl, hg, he1⟩) | ⟨rfl, hg, he1⟩) |
          ⟨rfl, hg, he1⟩) <;>
        refine ⟨fun hc => by rw [Prod.mk.injEq] at hc; omega, fun pt hpt => ?_⟩ <;>
        simp [footprint, movedTo, h2, hs] at hpt <;>
        (rcases hpt with rfl <;>
          first
          | exact Or.inr he1
          | (refine Or.inr ?_; convert he1 using 2 <;> omega)
          | exact Or.inl (by simp [footprint, h2, hs, Prod.mk.injEq] <;> omega))
    · rw [if_neg hs] at hk
      by_cases hh : p.orientation = some 'h'
      · rw [if_pos hh] at hk
        simp only [List.mem_append, mem_guard] at hk
        rcases hk with (((⟨rfl, hg, he1⟩ | ⟨rfl, hg, he1, he2⟩) | ⟨rfl, hg, he1⟩) |
            ⟨rfl, hg, he1, he2⟩) <;>
          refine ⟨fun hc => by rw [Prod.mk.injEq] at hc; omega, fun pt hpt => ?_⟩ <;>
          simp [footprint, movedTo, h2, hs, hh] at hpt <;>
          (rcases hpt with rfl | rfl <;>
            first
            | exact Or.inr he1
            | exact Or.inr he2
            | (refine Or.inr ?_; convert he1 using 2 <;> omega)
            | (refine Or.inr ?_; convert he2 using 2 <;> omega)
            | exact Or.inl (by simp [footprint, h2, hs, hh, Prod.mk.injEq] <;> omega))
      · rw [if_neg hh] at hk
        simp only [List.mem_append, mem_guard] at hk
        rcases hk with (((⟨rfl, hg, he1, he2⟩ | ⟨rfl, hg, he1⟩) | ⟨rfl, hg, he1, he2⟩) |
            ⟨rfl, hg, he1⟩) <;>
          refine ⟨fun hc => by rw [Prod.mk.injEq] at hc; omega, fun pt hpt => ?_⟩ <;>
          simp [footprint, movedTo, h2, hs, hh] at hpt <;>
          (rcases hpt with rfl | rfl <;>
            first
            | exact Or.inr he1
            | exact Or.inr he2
            | (refine Or.inr ?_; convert he1 using 2 <;> omega)
            | (refine Or.inr ?_; convert he2 using 2 <;> omega)
            | exact Or.inl (by simp [footprint, h2, hs, hh, Prod.mk.injEq] <;> omega))

/-- A generated destination key never coincides with the key of a
different piece of a well-formed board. -/
theorem newKeys_fresh {b : Board} (hwf : wfBoard b) {e : Pos × Piece} (he : e ∈ b.pieces)
    {k : Pos} (hk : k ∈ newKeys b e.2) :
    ∀ e2 ∈ b.pieces, e2.1 ≠ e.1 → k ≠ e2.1 := by
  intro e2 he2 hne hcontra
  subst hcontra
  obtain ⟨_, hcells⟩ := newKeys_footprint hk
  have htop2 : e2.1 ∈ footprint e2.2 := by
    rw [(hwf.1 e2 he2).2.2]
    exact topleft_mem_footprint _
  rcases hcells e2.1 (key_mem_footprint_movedTo _ _) with hin | hemp
  · exact hwf.2.2 e he e2 he2 (fun hq => hne hq.symm) e2.1 hin htop2
  · rw [update_grid_marker hwf he2 htop2] at hemp
    exact markerAt_ne_empty _ _ hemp

/-- C3: for a SearchState over a well-formed board whose heuristic field
equals the full identity-aware Manhattan sum of its board, every
successor produced by generate_successors carries the incrementally
updated heuristic (old minus the moved piece's old distance plus its new
distance, against the goalMap record of its identity), and that value
equals the heuristic recomputed from scratch on the successor's board. -/
theorem claim_C3 (s : State) (L : List State)
    (hwf : wfBoard s.board)
    (hhfn : s.hfn = hScratch s.board)
    (hgen : s.generate_successors = some L) :
    ∀ t ∈ L, t.hfn = hScratch t.board := by
  intro t ht
  obtain ⟨p, hp, k, hk, hmk⟩ := generate_successors_mem hgen t ht
  obtain ⟨dict, gp, b2, hdict, hgp, hcb, rfl⟩ := mkSucc_eq hmk
  obtain ⟨p0, hold, hb2⟩ := copy_board_eq hcb
  obtain ⟨e, he, hesnd⟩ := List.mem_map.mp hp
  have hkey : e.1 = (p.coord_x, p.coord_y) := by
    rw [← hesnd]
    exact (hwf.1 e he).2.2
  have hget : dictGet s.board.pieces (p.coord_x, p.coord_y) = some p := by
    obtain ⟨e1, e2⟩ := e
    simp only at hkey hesnd
    rw [hkey, hesnd] at he
    exact dictGet_of_mem_nodup he hwf.2.1
  have hp0 : p0 = p := by
    rw [hget] at hold
    exact (Option.some.inj hold).symm
  rw [hp0] at hb2
  obtain ⟨l1, l2, hsplit, hrem, _⟩ := dictGet_split hget
  have hktop : k ≠ (p.coord_x, p.coord_y) := (newKeys_footprint hk).1
  have hfresh : dictGet (dictRemove s.board.pieces (p.coord_x, p.coord_y)) k = none := by
    rw [dictGet_eq_none_iff]
    intro hmem
    obtain ⟨e2, he2r, he2k⟩ := List.mem_map.mp hmem
    have he2p : e2 ∈ s.board.pieces := by
      rw [hrem] at he2r
      rw [hsplit]
      rcases List.mem_append.mp he2r with h1 | h1
      · exact List.mem_append.mpr (Or.inl h1)
      · exact List.mem_append.mpr (Or.inr (List.mem_cons_of_mem _ h1))
    have hne2 : e2.1 ≠ e.1 := by
      rw [hkey, he2k]
      exact hktop
    have hkfr := newKeys_fresh hwf he (by rw [hesnd]; exact hk) e2 he2p hne2
    exact hkfr he2k.symm
  have hb2pieces : b2.pieces =
      (l1 ++ l2) ++ [(k, { p with coord_x := k.1, coord_y := k.2 })] := by
    rw [hb2]
    show dictInsert (dictRemove s.board.pieces (p.coord_x, p.coord_y)) k
      { p with coord_x := k.1, coord_y := k.2 } = _
    rw [dictInsert_notmem hfresh, hrem]
  have hb2dict : b2.goal_board_dict = s.board.goal_board_dict := by
    rw [hb2]
  have hsum2 : hScratch b2 =
      hScratch s.board - distToGoal s.board.goal_board_dict p
        + distToGoal s.board.goal_board_dict { p with coord_x := k.1, coord_y := k.2 } := by
    unfold hScratch
    rw [hb2pieces, hb2dict, hsplit]
    unfold dictValues
    simp only [List.map_append, List.map_cons, List.sum_append, List.sum_cons,
      List.map_nil, List.sum_nil]
    ring
  have hDp : distToGoal s.board.goal_board_dict p =
      |p.coord_x - gp.coord_x| + |p.coord_y - gp.coord_y| := by
    simp [distToGoal, hdict, hgp]
  have hDp2 : distToGoal s.board.goal_board_dict { p with coord_x := k.1, coord_y := k.2 } =
      |k.1 - gp.coord_x| + |k.2 - gp.coord_y| := by
    simp [distToGoal, hdict, hgp]
  show s.hfn - (|p.coord_x - gp.coord_x| + |p.coord_y - gp.coord_y|) +
      (|k.1 - gp.coord_x| + |k.2 - gp.coord_y|) = hScratch b2
  rw [hsum2, hDp, hDp2, hhfn]

theorem headD_mem_of_isEmpty {α : Type} (l : List α) (d : α) (h : l.isEmpty = false) :
    l.headD d ∈ l := by
  cases l with
  | nil => simp [List.isEmpty] at h
  | cons a rest => exact List.mem_cons_self _ _

theorem claim_C3_witness :
    (((cThreeS.generate_successors).getD []).headD cThreeDflt).hfn =
      hScratch ((((cThreeS.generate_successors).getD []).headD cThreeDflt).board) :=
  claim_C3 cThreeS ((cThreeS.generate_successors).getD []) (by decide) (by decide) rfl
    _ (headD_mem_of_isEmpty _ _ rfl)

/- ==============  C2: visited-on-pop, expand-once  ============== -/

theorem astarAux_trace {goal : Board} :
    ∀ (fuel : Nat) (heap : List (Int × State)) (visited : List Grid) (r : SRes)
      (tr : List Grid),
      astarAux goal fuel heap visited = some (r, tr) →
      tr.Nodup ∧ ∀ g ∈ tr, g ∉ visited := by
  intro fuel
  induction fuel with
  | zero => intro heap visited r tr h; cases h
  | succ n ih =>
    intro heap visited r tr h
    rw [astarAux] at h
    cases hpop : popMin heap with
    | none =>
      rw [hpop] at h
      obtain ⟨rfl, rfl⟩ := Prod.mk.injEq .. ▸ Option.some.inj h
      exact ⟨List.nodup_nil, by simp⟩
    | some pr =>
      obtain ⟨⟨f0, curr⟩, rest⟩ := pr
      rw [hpop] at h
      simp only at h
      by_cases hvis : curr.board.update_grid ∈ visited
      · rw [if_pos hvis] at h
        exact ih _ _ _ _ h
      · rw [if_neg hvis] at h
        by_cases hgoal : curr.board.eqBoard goal = true
        · rw [if_pos hgoal] at h
          obtain ⟨rfl, rfl⟩ := Prod.mk.injEq .. ▸ Option.some.inj h
          exact ⟨List.nodup_nil, by simp⟩
        · rw [if_neg hgoal] at h
          cases hsucc : curr.generate_successors with
          | none =>
            rw [hsucc] at h
            obtain ⟨rfl, rfl⟩ := Prod.mk.injEq .. ▸ Option.some.inj h
            exact ⟨List.nodup_nil, by simp⟩
          | some succs =>
            rw [hsucc] at h
            simp only at h
            cases hrec : astarAux goal n
                (astarPush rest succs (curr.board.update_grid :: visited))
                (curr.board.update_grid :: visited) with
            | none =>
              rw [hrec] at h
              simp only at h
              cases h
            | some pr2 =>
              obtain ⟨r2, tr2⟩ := pr2
              rw [hrec] at h
              simp only at h
              obtain ⟨rfl, rfl⟩ := Prod.mk.injEq .. ▸ Option.some.inj h
              obtain ⟨hnd, hnin⟩ := ih _ _ _ _ hrec
              constructor
              · refine List.nodup_cons.mpr ⟨?_, hnd⟩
                intro hmem
                exact hnin _ hmem (List.mem_cons_self _ _)
              · intro g2 hg2 hg2v
                rcases List.mem_cons.mp hg2 with rfl | hm
                · exact hvis hg2v
                · exact hnin _ hm (List.mem_cons_of_mem _ hg2v)

theorem dfsAux_trace {goal : Board} :
    ∀ (fuel : Nat) (stack : List State) (visited : List Grid) (r : SRes)
      (tr : List Grid),
      dfsAux goal fuel stack visited = some (r, tr) →
      tr.Nodup ∧ ∀ g ∈ tr, g ∉ visited := by
  intro fuel
  induction fuel with
  | zero => intro stack visited r tr h; cases h
  | succ n ih =>
    intro stack visited r tr h
    rw [dfsAux] at h
    cases hpop : popBack stack with
    | none =>
      rw [hpop] at h
      obtain ⟨rfl, rfl⟩ := Prod.mk.injEq .. ▸ Option.some.inj h
      exact ⟨List.nodup_nil, by simp⟩
    | some pr =>
      obtain ⟨curr, rest⟩ := pr
      rw [hpop] at h
      simp only at h
      by_cases hvis : curr.board.update_grid ∈ visited
      · rw [if_pos hvis] at h
        exact ih _ _ _ _ h
      · rw [if_neg hvis] at h
        by_cases hgoal : curr.board.eqBoard goal = true
        · rw [if_pos hgoal] at h
          obtain ⟨rfl, rfl⟩ := Prod.mk.injEq .. ▸ Option.some.inj h
          exact ⟨List.nodup_nil, by simp⟩
        · rw [if_neg hgoal] at h
          cases hsucc : curr.generate_successors with
          | none =>
            rw [hsucc] at h
            obtain ⟨rfl, rfl⟩ := Prod.mk.injEq .. ▸ Option.some.inj h
            exact ⟨List.nodup_nil, by simp⟩
          | some succs =>
            rw [hsucc] at h
            simp only at h
            cases hrec : dfsAux goal n
                (dfsPush rest succs (curr.board.update_grid :: visited))
                (curr.board.update_grid :: visited) with
            | none =>
              rw [hrec] at h
              simp only at h
              cases h
            | some pr2 =>
              obtain ⟨r2, tr2⟩ := pr2
              rw [hrec] at h
              simp only at h
              obtain ⟨rfl, rfl⟩ := Prod.mk.injEq .. ▸ Option.some.inj h
              obtain ⟨hnd, hnin⟩ := ih _ _ _ _ hrec
              constructor
              · refine List.nodup_cons.mpr ⟨?_, hnd⟩
                intro hmem
                exact hnin _ hmem (List.mem_cons_self _ _)
              · intro g2 hg2 hg2v
                rcases List.mem_cons.mp hg2 with rfl | hm
                · exact hvis hg2v
                · exact hnin _ hm (List.mem_cons_of_mem _ hg2v)

/-- C2: in a single run of either search strategy, a grid is added to
the visited set only when its node is popped (never when pushed), a
popped node whose grid is already visited is discarded without
expansion, and consequently the trace of grids that have successors
generated for them never repeats a grid and never revisits a grid that
was already in the visited set. -/
theorem claim_C2 (initial : State) (goal_board : Board) (fuel : Nat) :
    (∀ r tr, astar initial goal_board fuel = some (r, tr) →
      tr.Nodup ∧ ∀ g ∈ tr, g ∉ ([] : List Grid)) ∧
    (∀ r tr, dfs initial goal_board fuel = some (r, tr) →
      tr.Nodup ∧ ∀ g ∈ tr, g ∉ ([] : List Grid)) :=
  ⟨fun _ _ h => astarAux_trace _ _ _ _ _ h,
   fun _ _ h => dfsAux_trace _ _ _ _ _ h⟩

theorem claim_C2_witness :
    (((astar cThreeS cTwoGoalB 20).getD (SRes.noSolution, [])).2).Nodup ∧
    (((dfs cThreeS cTwoGoalB 20).getD (SRes.noSolution, [])).2).Nodup :=
  ⟨((claim_C2 cThreeS cTwoGoalB 20).1 _ _ rfl).1,
   ((claim_C2 cThreeS cTwoGoalB 20).2 _ _ rfl).1⟩

/- ==============  C9: astar successor handling  ============== -/

theorem setF_f (t : State) (v : Int) : (t.setF v).f = v := by
  cases t
  rfl

theorem popMin_eq_none {l : List (Int × State)} (h : popMin l = none) : l = [] := by
  cases l with
  | nil => rfl
  | cons a t =>
    unfold popMin at h
    cases hp : popMin t with
    | none =>
      rw [hp] at h
      simp only at h
      cases h
    | some pr =>
      obtain ⟨m, rest2⟩ := pr
      rw [hp] at h
      simp only at h
      by_cases hle : a.1 ≤ m.1
      · rw [if_pos hle] at h
        cases h
      · rw [if_neg hle] at h
        cases h

theorem popMin_min :
    ∀ {heap : List (Int × State)} {e : Int × State} {rest : List (Int × State)},
      popMin heap = some (e, rest) → ∀ e2 ∈ heap, e.1 ≤ e2.1 := by
  intro heap
  induction heap with
  | nil => intro e rest h; cases h
  | cons a t ih =>
    intro e rest h e2 he2
    unfold popMin at h
    cases hp : popMin t with
    | none =>
      rw [hp] at h
      simp only at h
      obtain ⟨rfl, rfl⟩ := Prod.mk.injEq .. ▸ Option.some.inj h
      have ht : t = [] := popMin_eq_none hp
      subst ht
      rcases List.mem_cons.mp he2 with rfl | hm
      · exact le_refl _
      · cases hm
    | some pr =>
      obtain ⟨m, rest2⟩ := pr
      rw [hp] at h
      simp only at h
      by_cases hle : a.1 ≤ m.1
      · rw [if_pos hle] at h
        obtain ⟨rfl, rfl⟩ := Prod.mk.injEq .. ▸ Option.some.inj h
        rcases List.mem_cons.mp he2 with rfl | hm
        · exact le_refl _
        · exact le_trans hle (ih hp _ hm)
      · rw [if_neg hle] at h
        obtain ⟨rfl, rfl⟩ := Prod.mk.injEq .. ▸ Option.some.inj h
        rcases List.mem_cons.mp he2 with rfl | hm
        · omega
        · exact ih hp _ hm

theorem popMin_spec :
    ∀ {heap : List (Int × State)} {e : Int × State} {rest : List (Int × State)},
      popMin heap = some (e, rest) →
      e ∈ heap ∧ rest.length + 1 = heap.length ∧ ∀ x ∈ rest, x ∈ heap := by
  intro heap
  induction heap with
  | nil => intro e rest h; cases h
  | cons a t ih =>
    intro e rest h
    unfold popMin at h
    cases hp : popMin t with
    | none =>
      rw [hp] at h
      simp only at h
      obtain ⟨rfl, rfl⟩ := Prod.mk.injEq .. ▸ Option.some.inj h
      have ht : t = [] := popMin_eq_none hp
      subst ht
      exact ⟨List.mem_cons_self _ _, rfl, by simp⟩
    | some pr =>
      obtain ⟨m, rest2⟩ := pr
      rw [hp] at h
      simp only at h
      obtain ⟨hm, hlen, hsub⟩ := ih hp
      by_cases hle : a.1 ≤ m.1
      · rw [if_pos hle] at h
        obtain ⟨rfl, rfl⟩ := Prod.mk.injEq .. ▸ Option.some.inj h
        exact ⟨List.mem_cons_self _ _, rfl,
          fun x hx => List.mem_cons_of_mem _ hx⟩
      · rw [if_neg hle] at h
        obtain ⟨rfl, rfl⟩ := Prod.mk.injEq .. ▸ Option.some.inj h
        refine ⟨List.mem_cons_of_mem _ hm, by simp [← hlen], ?_⟩
        intro x hx
        rcases List.mem_cons.mp hx with rfl | hx2
        · exact List.mem_cons_self _ _
        · exact List.mem_cons_of_mem _ (hsub _ hx2)

/-- Shape of generated successors: depth is parent depth + 1, f and
parent are copied, and hfn is the incremental update. -/
theorem succ_shape {s : State} {L : List State} (h : s.generate_successors = some L) :
    ∀ t ∈ L, t.depth = s.depth + 1 ∧ t.f = s.f ∧ t.parent = some s ∧
      ∃ p ∈ dictValues s.board.pieces, ∃ k ∈ newKeys s.board p, ∃ dict gp,
        s.board.goal_board_dict = some dict ∧ dictGet dict p.uid = some gp ∧
        t.hfn = (s.hfn - (|p.coord_x - gp.coord_x| + |p.coord_y - gp.coord_y|)) +
          (|k.1 - gp.coord_x| + |k.2 - gp.coord_y|) := by
  intro t ht
  obtain ⟨p, hp, k, hk, hmk⟩ := generate_successors_mem h t ht
  obtain ⟨dict, gp, b2, hdict, hgp, hcb, rfl⟩ := mkSucc_eq hmk
  exact ⟨rfl, rfl, rfl, p, hp, k, hk, dict, gp, hdict, hgp, rfl⟩

theorem astarPush_mem :
    ∀ (succs : List State) (rest : List (Int × State)) (visited : List Grid)
      (e : Int × State),
      e ∈ astarPush rest succs visited ↔
        e ∈ rest ∨ ∃ t ∈ succs, t.board.update_grid ∉ visited ∧
          e = (t.depth + t.hfn, t.setF (t.depth + t.hfn)) := by
  intro succs
  induction succs with
  | nil =>
    intro rest visited e
    simp [astarPush]
  | cons st tl ih =>
    intro rest visited e
    unfold astarPush
    by_cases hv : st.board.update_grid ∈ visited
    · rw [if_pos hv, ih]
      constructor
      · rintro (h1 | ⟨t, htl, hnv, heq⟩)
        · exact Or.inl h1
        · exact Or.inr ⟨t, List.mem_cons_of_mem _ htl, hnv, heq⟩
      · rintro (h1 | ⟨t, htl, hnv, heq⟩)
        · exact Or.inl h1
        · rcases List.mem_cons.mp htl with rfl | hm
          · exact absurd hv hnv
          · exact Or.inr ⟨t, hm, hnv, heq⟩
    · rw [if_neg hv, ih]
      constructor
      · rintro (h1 | ⟨t, htl, hnv, heq⟩)
        · rcases List.mem_append.mp h1 with h2 | h2
          · exact Or.inl h2
          · simp only [List.mem_singleton] at h2
            refine Or.inr ⟨st, List.mem_cons_self _ _, hv, ?_⟩
            rw [h2, setF_f]
        · exact Or.inr ⟨t, List.mem_cons_of_mem _ htl, hnv, heq⟩
      · rintro (h1 | ⟨t, htl, hnv, heq⟩)
        · exact Or.inl (List.mem_append.mpr (Or.inl h1))
        · rcases List.mem_cons.mp htl with rfl | hm
          · refine Or.inl (List.mem_append.mpr (Or.inr ?_))
            simp only [List.mem_singleton]
            rw [heq, setF_f]
          · exact Or.inr ⟨t, hm, hnv, heq⟩

/-- C9: in best-first search every successor of an expanded node carries
cost (depth) parent + 1 and the incrementally updated heuristic; before
being pushed its priority is recomputed as f = cost + heuristic; exactly
the successors whose rendered grid is not in the visited set are pushed;
and the frontier pop always returns an entry of minimal f. -/
theorem claim_C9 :
    (∀ (heap : List (Int × State)) (e : Int × State) (rest : List (Int × State)),
      popMin heap = some (e, rest) → ∀ e2 ∈ heap, e.1 ≤ e2.1) ∧
    (∀ (s : State) (L : List State), s.generate_successors = some L →
      ∀ t ∈ L, t.depth = s.depth + 1 ∧
        ∃ p ∈ dictValues s.board.pieces, ∃ k ∈ newKeys s.board p, ∃ dict gp,
          s.board.goal_board_dict = some dict ∧ dictGet dict p.uid = some gp ∧
          t.hfn = (s.hfn - (|p.coord_x - gp.coord_x| + |p.coord_y - gp.coord_y|)) +
            (|k.1 - gp.coord_x| + |k.2 - gp.coord_y|)) ∧
    (∀ (succs : List State) (rest : List (Int × State)) (visited : List Grid)
      (e : Int × State),
      e ∈ astarPush rest succs visited ↔
        e ∈ rest ∨ ∃ t ∈ succs, t.board.update_grid ∉ visited ∧
          e = (t.depth + t.hfn, t.setF (t.depth + t.hfn))) :=
  ⟨fun _ _ _ h => popMin_min h,
   fun _ _ h t ht =>
    ⟨(succ_shape h t ht).1, (succ_shape h t ht).2.2.2⟩,
   astarPush_mem⟩

theorem claim_C9_witness :
    ((3 : Int) ≤ 5) ∧
    ((0, cThreeDflt) ∈ astarPush [(0, cThreeDflt)] [] [] ↔
      (0, cThreeDflt) ∈ [((0 : Int), cThreeDflt)] ∨ ∃ t ∈ ([] : List State),
        t.board.update_grid ∉ ([] : List Grid) ∧
        ((0 : Int), cThreeDflt) = (t.depth + t.hfn, t.setF (t.depth + t.hfn))) :=
  ⟨claim_C9.1 [(3, cThreeS), (5, cThreeDflt)] (3, cThreeS) [(5, cThreeDflt)] rfl
      (5, cThreeDflt) (List.mem_cons_of_mem _ (List.mem_cons_self _ _)),
   claim_C9.2.2 [] [(0, cThreeDflt)] [] (0, cThreeDflt)⟩

theorem optMap_none_of_mem {α β : Type} {f : α → Option β} :
    ∀ {l : List α} {a : α}, a ∈ l → f a = none → optMap f l = none := by
  intro l
  induction l with
  | nil => intro a ha; cases ha
  | cons b2 t ih =>
    intro a ha hfa
    rcases List.mem_cons.mp ha with rfl | hm
    · unfold optMap
      rw [hfa]
      rfl
    · unfold optMap
      cases hfb : f b2 with
      | none => rfl
      | some v =>
        rw [ih hm hfa]
        rfl

theorem mkSucc_none_of_lookup {s : State} {p : Piece} (k : Pos)
    (h : goalLookup s.board p.uid = none) : mkSucc s p k = none := by
  unfold mkSucc
  unfold goalLookup at h
  cases hdict : s.board.goal_board_dict with
  | none => rfl
  | some d =>
    rw [hdict] at h
    simp only at h
    simp only [Option.bind_eq_bind, Option.some_bind]
    rw [h]
    rfl

theorem mkSucc_some {s : State} {p : Piece} {k : Pos}
    (hkc : keyConsistent s.board) (hnd : (dictKeys s.board.pieces).Nodup)
    (hcov : (goalLookup s.board p.uid).isSome = true)
    (hp : p ∈ dictValues s.board.pieces) :
    ∃ t, mkSucc s p k = some t := by
  unfold mkSucc
  unfold goalLookup at hcov
  cases hdict : s.board.goal_board_dict with
  | none => rw [hdict] at hcov; cases hcov
  | some d =>
    rw [hdict] at hcov
    simp only at hcov
    obtain ⟨gp, hgp⟩ := Option.isSome_iff_exists.mp hcov
    simp only [Option.bind_eq_bind, Option.some_bind]
    rw [hgp]
    have hget : dictGet s.board.pieces (p.coord_x, p.coord_y) = some p := by
      obtain ⟨e, he, hesnd⟩ := List.mem_map.mp hp
      have hkey := hkc e he
      obtain ⟨e1, e2⟩ := e
      simp only at hkey hesnd
      rw [hkey, hesnd] at he
      exact dictGet_of_mem_nodup he hnd
    unfold Board.copy_board
    rw [hget]
    exact ⟨_, rfl⟩

theorem dictValues_remove_sub {K V : Type} [DecidableEq K] {l : List (K × V)} {k : K} :
    ∀ q ∈ dictValues (dictRemove l k), q ∈ dictValues l := by
  induction l with
  | nil => intro q hq; cases hq
  | cons e rest ih =>
    intro q hq
    unfold dictRemove at hq
    split at hq
    · exact List.mem_cons_of_mem _ hq
    · rcases List.mem_cons.mp hq with rfl | hm
      · exact List.mem_cons_self _ _
      · exact List.mem_cons_of_mem _ (ih _ hm)

theorem dictValues_insert_sub {K V : Type} [DecidableEq K] {l : List (K × V)} {k : K}
    {v : V} : ∀ q ∈ dictValues (dictInsert l k v), q = v ∨ q ∈ dictValues l := by
  induction l with
  | nil =>
    intro q hq
    rcases List.mem_cons.mp hq with rfl | hm
    · exact Or.inl rfl
    · cases hm
  | cons e rest ih =>
    intro q hq
    unfold dictInsert at hq
    split at hq
    · rcases List.mem_cons.mp hq with rfl | hm
      · exact Or.inl rfl
      · exact Or.inr (List.mem_cons_of_mem _ hm)
    · rcases List.mem_cons.mp hq with rfl | hm
      · exact Or.inr (List.mem_cons_self _ _)
      · rcases ih _ hm with h1 | h1
        · exact Or.inl h1
        · exact Or.inr (List.mem_cons_of_mem _ h1)

theorem dictRemove_entry_sub {K V : Type} [DecidableEq K] {l : List (K × V)} {k : K} :
    ∀ e ∈ dictRemove l k, e ∈ l := by
  induction l with
  | nil => intro e he; cases he
  | cons e2 rest ih =>
    intro e he
    unfold dictRemove at he
    split at he
    · exact List.mem_cons_of_mem _ he
    · rcases List.mem_cons.mp he with rfl | hm
      · exact List.mem_cons_self _ _
      · exact List.mem_cons_of_mem _ (ih _ hm)

theorem dictInsert_entry_sub {K V : Type} [DecidableEq K] {l : List (K × V)} {k : K}
    {v : V} : ∀ e ∈ dictInsert l k v, e = (k, v) ∨ e ∈ l := by
  induction l with
  | nil =>
    intro e he
    rcases List.mem_cons.mp he with rfl | hm
    · exact Or.inl rfl
    · cases hm
  | cons e2 rest ih =>
    intro e he
    unfold dictInsert at he
    split at he
    · rcases List.mem_cons.mp he with rfl | hm
      · exact Or.inl rfl
      · exact Or.inr (List.mem_cons_of_mem _ hm)
    · rcases List.mem_cons.mp he with rfl | hm
      · exact Or.inr (List.mem_cons_self _ _)
      · rcases ih _ hm with h1 | h1
        · exact Or.inl h1
        · exact Or.inr (List.mem_cons_of_mem _ h1)

theorem dictKeys_insert_sub {K V : Type} [DecidableEq K] {l : List (K × V)} {k : K}
    {v : V} : ∀ u ∈ dictKeys (dictInsert l k v), u ∈ dictKeys l ∨ u = k := by
  intro u hu
  obtain ⟨e, he, rfl⟩ := List.mem_map.mp hu
  rcases dictInsert_entry_sub _ he with rfl | h1
  · exact Or.inr rfl
  · exact Or.inl (List.mem_map_of_mem _ h1)

theorem dictRemove_sublist {K V : Type} [DecidableEq K] (l : List (K × V)) (k : K) :
    List.Sublist (dictRemove l k) l := by
  induction l with
  | nil => exact List.Sublist.slnil
  | cons e rest ih =>
    unfold dictRemove
    split
    · exact List.sublist_cons_self _ _
    · exact List.Sublist.cons₂ _ ih

theorem dictKeys_remove_nodup {K V : Type} [DecidableEq K] {l : List (K × V)} {k : K}
    (h : (dictKeys l).Nodup) : (dictKeys (dictRemove l k)).Nodup :=
  List.Nodup.sublist (List.Sublist.map _ (dictRemove_sublist l k)) h

theorem dictKeys_insert_nodup {K V : Type} [DecidableEq K] {l : List (K × V)} {k : K}
    {v : V} (h : (dictKeys l).Nodup) : (dictKeys (dictInsert l k v)).Nodup := by
  induction l with
  | nil => simp [dictInsert, dictKeys]
  | cons e rest ih =>
    have h2 : (e.1 :: dictKeys rest).Nodup := h
    unfold dictInsert
    split
    case isTrue he =>
      have : (dictKeys ((k, v) :: rest)).Nodup ↔ (k :: dictKeys rest).Nodup := Iff.rfl
      rw [this]
      rw [← he]
      exact h2
    case isFalse he =>
      have h3 : (dictKeys (e :: dictInsert rest k v)) =
          e.1 :: dictKeys (dictInsert rest k v) := rfl
      rw [h3, List.nodup_cons]
      refine ⟨?_, ih (List.nodup_cons.mp h2).2⟩
      intro hmem
      rcases dictKeys_insert_sub _ hmem with h4 | h4
      · exact (List.nodup_cons.mp h2).1 h4
      · exact he h4

/-- If some piece has at least one legal destination but its identity is
missing from the goal map, expansion fails (the uncaught KeyError /
TypeError of the source). -/
theorem gen_none_of_missing {s : State} {p : Piece}
    (hp : p ∈ dictValues s.board.pieces) (hkeys : newKeys s.board p ≠ [])
    (hmiss : goalLookup s.board p.uid = none) :
    s.generate_successors = none := by
  unfold State.generate_successors
  have hinner : optMap (mkSucc s p) (newKeys s.board p) = none := by
    cases hkl : newKeys s.board p with
    | nil => exact absurd hkl hkeys
    | cons k rest =>
      exact optMap_none_of_mem (List.mem_cons_self k rest) (mkSucc_none_of_lookup k hmiss)
  have houter : optMap
      (fun piece => optMap (mkSucc s piece) (newKeys s.board piece))
      (dictValues s.board.pieces) = none :=
    optMap_none_of_mem hp hinner
  rw [houter]
  rfl

/-- With consistent keys, distinct keys, and a covering goal map,
expansion succeeds. -/
theorem gen_some {s : State} (hkc : keyConsistent s.board)
    (hnd : (dictKeys s.board.pieces).Nodup) (hcov : uidCover s.board) :
    ∃ L, s.generate_successors = some L := by
  unfold State.generate_successors
  have hall : ∀ p ∈ dictValues s.board.pieces,
      ∃ r, optMap (mkSucc s p) (newKeys s.board p) = some r := by
    intro p hp
    apply optMap_isSome
    intro k _
    exact mkSucc_some hkc hnd (hcov p hp) hp
  obtain ⟨gs, hgs⟩ := optMap_isSome hall
  refine ⟨gs.flatten, ?_⟩
  rw [hgs]
  rfl

/-- Successor boards share the goal dict and keep keys consistent,
distinct, and identity-covered. -/
theorem succ_preserve {s : State} {L : List State} (hkc : keyConsistent s.board)
    (hnd : (dictKeys s.board.pieces).Nodup) (hcov : uidCover s.board)
    (h : s.generate_successors = some L) :
    ∀ t ∈ L, t.board.goal_board_dict = s.board.goal_board_dict ∧
      keyConsistent t.board ∧ (dictKeys t.board.pieces).Nodup ∧
      uidCover t.board := by
  intro t ht
  obtain ⟨p, hp, k, hk, hmk⟩ := generate_successors_mem h t ht
  obtain ⟨dict, gp, b2, hdict, hgp, hcb, rfl⟩ := mkSucc_eq hmk
  obtain ⟨p0, hold, hb2⟩ := copy_board_eq hcb
  subst hb2
  have hp0mem : p0 ∈ dictValues s.board.pieces :=
    List.mem_map_of_mem _ (dictGet_mem hold)
  refine ⟨rfl, ?_, ?_, ?_⟩
  · intro e he
    rcases dictInsert_entry_sub _ he with rfl | h1
    · rfl
    · exact hkc e (dictRemove_entry_sub _ h1)
  · exact dictKeys_insert_nodup (dictKeys_remove_nodup hnd)
  · intro q hq
    rcases dictValues_insert_sub _ hq with rfl | h1
    · exact hcov p0 hp0mem
    · exact hcov q (dictValues_remove_sub _ h1)

theorem dictGet_insert_isSome {K V : Type} [DecidableEq K] {d : List (K × V)} {u k : K}
    {v : V} (h : ∃ gp, dictGet d u = some gp) :
    ∃ gp2, dictGet (dictInsert d k v) u = some gp2 := by
  by_cases hu : u = k
  · subst hu
    exact ⟨v, dictGet_insert_self _ _ _⟩
  · rw [dictGet_insert_ne _ hu]
    exact h

theorem listPop_mem {α : Type} :
    ∀ {l : List α} {i : Nat} {a : α} {rest : List α},
      listPop l i = some (a, rest) → ∀ q ∈ l, q = a ∨ q ∈ rest := by
  intro l
  induction l with
  | nil =>
    intro i a rest h
    unfold listPop at h
    simp [List.get?] at h
  | cons e tail ih =>
    intro i a rest h q hq
    cases i with
    | zero =>
      unfold listPop at h
      simp only [List.get?, List.eraseIdx] at h
      obtain ⟨rfl, rfl⟩ := Prod.mk.injEq .. ▸ Option.some.inj h
      rcases List.mem_cons.mp hq with rfl | hm
      · exact Or.inl rfl
      · exact Or.inr hm
    | succ j =>
      unfold listPop at h
      simp only [List.get?, List.eraseIdx] at h
      cases hg : tail.get? j with
      | none => rw [hg] at h; cases h
      | some a2 =>
        rw [hg] at h
        simp only at h
        obtain ⟨rfl, rfl⟩ := Prod.mk.injEq .. ▸ Option.some.inj h
        have hpop2 : listPop tail j = some (a2, tail.eraseIdx j) := by
          unfold listPop
          rw [hg]
        rcases List.mem_cons.mp hq with rfl | hm
        · exact Or.inr (List.mem_cons_self _ _)
        · rcases ih hpop2 q hm with rfl | h3
          · exact Or.inl rfl
          · exact Or.inr (List.mem_cons_of_mem _ h3)

theorem foldlM_inv {σ α : Type} {f : σ → α → Option σ} {P : σ → Prop}
    (hstep : ∀ s a s2, f s a = some s2 → P s → P s2) :
    ∀ {l : List α} {s s2 : σ}, List.foldlM f s l = some s2 → P s → P s2 := by
  intro l
  induction l with
  | nil =>
    intro s s2 h hp
    obtain rfl := Option.some.inj h
    exact hp
  | cons a t ih =>
    intro s s2 h hp
    rw [List.foldlM] at h
    cases hfa : f s a with
    | none =>
      rw [hfa] at h
      simp only [Option.bind_eq_bind, Option.none_bind] at h
      cases h
    | some s1 =>
      rw [hfa] at h
      simp only [Option.bind_eq_bind, Option.some_bind] at h
      exact ih h (hstep _ _ _ hfa hp)

theorem processChar_inv {st st2 : RF} {x : Int} {ch : Char}
    (h : processChar st x ch = some st2) (hinv : rfInv st) : rfInv st2 := by
  obtain ⟨h0a, h0b, hvals, hff⟩ := hinv
  unfold processChar at h
  by_cases hfin : st.final = false
  · rw [if_pos hfin] at h
    by_cases hc1 : ch = '^'
    · rw [if_pos hc1] at h
      obtain rfl := Option.some.inj h
      refine ⟨h0a, h0b, ?_, hff⟩
      intro p hp
      rcases dictValues_insert_sub _ hp with rfl | h1
      · exact Or.inr (Or.inl (List.mem_append.mpr (Or.inr (List.mem_cons_self _ _))))
      · rcases hvals p h1 with h2 | h2 | h2 | h2 | h2
        · exact Or.inl h2
        · exact Or.inr (Or.inl (List.mem_append.mpr (Or.inl h2)))
        · exact Or.inr (Or.inr (Or.inl h2))
        · exact Or.inr (Or.inr (Or.inr (Or.inl h2)))
        · exact Or.inr (Or.inr (Or.inr (Or.inr h2)))
    · rw [if_neg hc1] at h
      by_cases hc2 : ch = '<'
      · rw [if_pos hc2] at h
        obtain rfl := Option.some.inj h
        refine ⟨h0a, h0b, ?_, hff⟩
        intro p hp
        rcases dictValues_insert_sub _ hp with rfl | h1
        · exact Or.inr (Or.inr (Or.inl (List.mem_append.mpr
            (Or.inr (List.mem_cons_self _ _)))))
        · rcases hvals p h1 with h2 | h2 | h2 | h2 | h2
          · exact Or.inl h2
          · exact Or.inr (Or.inl h2)
          · exact Or.inr (Or.inr (Or.inl (List.mem_append.mpr (Or.inl h2))))
          · exact Or.inr (Or.inr (Or.inr (Or.inl h2)))
          · exact Or.inr (Or.inr (Or.inr (Or.inr h2)))
      · rw [if_neg hc2] at h
        by_cases hc3 : ch = char_single
        · rw [if_pos hc3] at h
          obtain rfl := Option.some.inj h
          refine ⟨h0a, h0b, ?_, hff⟩
          intro p hp
          rcases dictValues_insert_sub _ hp with rfl | h1
          · exact Or.inl (List.mem_append.mpr (Or.inr (List.mem_cons_self _ _)))
          · rcases hvals p h1 with h2 | h2 | h2 | h2 | h2
            · exact Or.inl (List.mem_append.mpr (Or.inl h2))
            · exact Or.inr (Or.inl h2)
            · exact Or.inr (Or.inr (Or.inl h2))
            · exact Or.inr (Or.inr (Or.inr (Or.inl h2)))
            · exact Or.inr (Or.inr (Or.inr (Or.inr h2)))
        · rw [if_neg hc3] at h
          by_cases hc4 : ch = '1'
          · rw [if_pos hc4] at h
            by_cases hf2 : st.found_2by2 = false
            · rw [if_pos hf2] at h
              obtain rfl := Option.some.inj h
              refine ⟨?_, h0b, ?_, ?_⟩
              · intro hcontra
                exact Bool.noConfusion hcontra
              · intro p hp
                rcases dictValues_insert_sub _ hp with rfl | h1
                · exact Or.inr (Or.inr (Or.inr (Or.inl rfl)))
                · rcases hvals p h1 with h2 | h2 | h2 | h2 | h2
                  · exact Or.inl h2
                  · exact Or.inr (Or.inl h2)
                  · exact Or.inr (Or.inr (Or.inl h2))
                  · rw [h0a hf2] at h2
                    cases h2
                  · exact Or.inr (Or.inr (Or.inr (Or.inr h2)))
              · intro hfc
                have hft := h0b hfc
                rw [hfin] at hft
                cases hft
            · rw [if_neg hf2] at h
              obtain rfl := Option.some.inj h
              exact ⟨h0a, h0b, hvals, hff⟩
          · rw [if_neg hc4] at h
            obtain rfl := Option.some.inj h
            exact ⟨h0a, h0b, hvals, hff⟩
  · rw [if_neg hfin] at h
    have hft : st.final = true := by
      revert hfin
      cases st.final <;> simp
    by_cases hc1 : ch = '^'
    · rw [if_pos hc1] at h
      cases hpop : listPop st.vert (find_min_index st.vert x st.line_index) with
      | none => rw [hpop] at h; cases h
      | some pr =>
        obtain ⟨matched, rest⟩ := pr
        rw [hpop] at h
        simp only at h
        obtain rfl := Option.some.inj h
        refine ⟨h0a, fun _ => hft, ?_, ?_⟩
        · intro p hp
          rcases hvals p hp with h2 | h2 | h2 | h2 | h2
          · exact Or.inl h2
          · rcases listPop_mem hpop p h2 with rfl | h3
            · exact Or.inr (Or.inr (Or.inr (Or.inr ⟨_, dictGet_insert_self _ _ _⟩)))
            · exact Or.inr (Or.inl h3)
          · exact Or.inr (Or.inr (Or.inl h2))
          · exact Or.inr (Or.inr (Or.inr (Or.inl h2)))
          · exact Or.inr (Or.inr (Or.inr (Or.inr (dictGet_insert_isSome h2))))
        · intro hfc d hd
          exact dictGet_insert_isSome (hff hfc d hd)
    · rw [if_neg hc1] at h
      by_cases hc2 : ch = '<'
      · rw [if_pos hc2] at h
        cases hpop : listPop st.hori (find_min_index st.hori x st.line_index) with
        | none => rw [hpop] at h; cases h
        | some pr =>
          obtain ⟨matched, rest⟩ := pr
          rw [hpop] at h
          simp only at h
          obtain rfl := Option.some.inj h
          refine ⟨h0a, fun _ => hft, ?_, ?_⟩
          · intro p hp
            rcases hvals p hp with h2 | h2 | h2 | h2 | h2
            · exact Or.inl h2
            · exact Or.inr (Or.inl h2)
            · rcases listPop_mem hpop p h2 with rfl | h3
              · exact Or.inr (Or.inr (Or.inr (Or.inr ⟨_, dictGet_insert_self _ _ _⟩)))
              · exact Or.inr (Or.inr (Or.inl h3))
            · exact Or.inr (Or.inr (Or.inr (Or.inl h2)))
            · exact Or.inr (Or.inr (Or.inr (Or.inr (dictGet_insert_isSome h2))))
          · intro hfc d hd
            exact dictGet_insert_isSome (hff hfc d hd)
      · rw [if_neg hc2] at h
        by_cases hc3 : ch = char_single
        · rw [if_pos hc3] at h
          cases hpop : listPop st.singles (find_min_index st.singles x st.line_index) with
          | none => rw [hpop] at h; cases h
          | some pr =>
            obtain ⟨matched, rest⟩ := pr
            rw [hpop] at h
            simp only at h
            obtain rfl := Option.some.inj h
            refine ⟨h0a, fun _ => hft, ?_, ?_⟩
            · intro p hp
              rcases hvals p hp with h2 | h2 | h2 | h2 | h2
              · rcases listPop_mem hpop p h2 with rfl | h3
                · exact Or.inr (Or.inr (Or.inr (Or.inr ⟨_, dictGet_insert_self _ _ _⟩)))
                · exact Or.inl h3
              · exact Or.inr (Or.inl h2)
              · exact Or.inr (Or.inr (Or.inl h2))
              · exact Or.inr (Or.inr (Or.inr (Or.inl h2)))
              · exact Or.inr (Or.inr (Or.inr (Or.inr (dictGet_insert_isSome h2))))
            · intro hfc d hd
              exact dictGet_insert_isSome (hff hfc d hd)
        · rw [if_neg hc3] at h
          by_cases hc4 : ch = '1'
          · rw [if_pos hc4] at h
            by_cases hff2 : st.finalfound_2by2 = false
            · rw [if_pos hff2] at h
              cases hdbl : st.double with
              | none => rw [hdbl] at h; cases h
              | some d =>
                rw [hdbl] at h
                simp only at h
                obtain rfl := Option.some.inj h
                refine ⟨?_, fun _ => hft, ?_, ?_⟩
                · intro hc
                  rw [h0a hc] at hdbl
                  cases hdbl
                · intro p hp
                  rcases hvals p hp with h2 | h2 | h2 | h2 | h2
                  · exact Or.inl h2
                  · exact Or.inr (Or.inl h2)
                  · exact Or.inr (Or.inr (Or.inl h2))
                  · rw [hdbl] at h2
                    exact Or.inr (Or.inr (Or.inr (Or.inl h2)))
                  · exact Or.inr (Or.inr (Or.inr (Or.inr (dictGet_insert_isSome h2))))
                · intro _ d2 hd2
                  have hdd : d2 = d := (Option.some.inj hd2).symm
                  subst hdd
                  exact ⟨_, dictGet_insert_self _ _ _⟩
            · rw [if_neg hff2] at h
              obtain rfl := Option.some.inj h
              exact ⟨h0a, h0b, hvals, hff⟩
          · rw [if_neg hc4] at h
            obtain rfl := Option.some.inj h
            exact ⟨h0a, h0b, hvals, hff⟩

theorem processLine_inv {st st2 : RF} {line : String}
    (h : processLine st line = some st2) (hinv : rfInv st) : rfInv st2 := by
  unfold processLine at h
  have hinv1 : rfInv { st with heightAcc := st.heightAcc + 1 } := hinv
  by_cases hb : line = ""
  · rw [if_pos hb] at h
    split at h
    · obtain rfl := Option.some.inj h
      exact ⟨hinv.1, fun _ => rfl, hinv.2.2.1, hinv.2.2.2⟩
    · obtain rfl := Option.some.inj h
      exact hinv1
  · rw [if_neg hb] at h
    cases hf : line.toList.enum.foldlM (fun s ic => processChar s (ic.1 : Int) ic.2)
        { st with heightAcc := st.heightAcc + 1 } with
    | none =>
      rw [hf] at h
      simp only [Option.bind_eq_bind, Option.none_bind] at h
      cases h
    | some stm =>
      rw [hf] at h
      simp only [Option.bind_eq_bind, Option.some_bind, Option.pure_def] at h
      obtain rfl := Option.some.inj h
      have hres := foldlM_inv (fun s a s3 hs hps => processChar_inv hs hps) hf hinv1
      exact hres

theorem rfInv_initRF : rfInv initRF := by
  refine ⟨fun _ => rfl, fun hc => Bool.noConfusion hc, ?_, fun hc => Bool.noConfusion hc⟩
  intro p hp
  cases hp

/-- Every piece of a fully matched load is covered by the goal dict. -/
theorem rf_cover {lines : List String} {st : RF}
    (h : lines.foldlM processLine initRF = some st)
    (hs : st.singles = []) (hv : st.vert = []) (hh : st.hori = [])
    (hd : st.double = none ∨ st.finalfound_2by2 = true) :
    ∀ p ∈ dictValues st.pieces, ∃ gp, dictGet st.goal_board_dict p.uid = some gp := by
  have hinv := foldlM_inv (fun s a s2 hs2 hp => processLine_inv hs2 hp) h rfInv_initRF
  intro p hp
  rcases hinv.2.2.1 p hp with h2 | h2 | h2 | h2 | h2
  · rw [hs] at h2
    cases h2
  · rw [hv] at h2
    cases h2
  · rw [hh] at h2
    cases h2
  · rcases hd with hd1 | hd1
    · rw [hd1] at h2
      cases h2
    · exact hinv.2.2.2 hd1 p h2
  · exact h2

theorem read_from_file_eq {lines : List String} {st : RF}
    (h : lines.foldlM processLine initRF = some st) :
    read_from_file lines = some (rfBoard st, rfGoalBoard st) := by
  unfold read_from_file
  rw [h]
  rfl

/-- C10: successor generation needs a complete goal map even when no
heuristic is used by the strategy: if any piece with at least one legal
destination lacks a goal-map entry for its identity, generate_successors
fails with the uncaught lookup error; with consistent keys, distinct
keys and a goal map covering every identity, expansion succeeds and
every successor board carries the same goal_board_dict with identities
preserved (so coverage persists along copy_board chains, in depth-first
search as well as best-first); and a fully matched read_from_file load
yields a board whose goal map covers all its identities. -/
theorem claim_C10 :
    (∀ (s : State) (p : Piece), p ∈ dictValues s.board.pieces →
      newKeys s.board p ≠ [] → goalLookup s.board p.uid = none →
      s.generate_successors = none) ∧
    (∀ s : State, keyConsistent s.board → (dictKeys s.board.pieces).Nodup →
      uidCover s.board →
      ∃ L, s.generate_successors = some L ∧ ∀ t ∈ L,
        t.board.goal_board_dict = s.board.goal_board_dict ∧
        keyConsistent t.board ∧ (dictKeys t.board.pieces).Nodup ∧
        uidCover t.board) ∧
    (∀ (lines : List String) (st : RF),
      lines.foldlM processLine initRF = some st →
      st.singles = [] → st.vert = [] → st.hori = [] →
      (st.double = none ∨ st.finalfound_2by2 = true) →
      read_from_file lines = some (rfBoard st, rfGoalBoard st) ∧
      uidCover (rfBoard st)) := by
  refine ⟨?_, ?_, ?_⟩
  · intro s p hp hkeys hmiss
    exact gen_none_of_missing hp hkeys hmiss
  · intro s hkc hnd hcov
    obtain ⟨L, hL⟩ := gen_some hkc hnd hcov
    exact ⟨L, hL, succ_preserve hkc hnd hcov hL⟩
  · intro lines st h hs hv hh hd
    refine ⟨read_from_file_eq h, ?_⟩
    intro p hp
    obtain ⟨gp, hgp⟩ := rf_cover h hs hv hh hd p hp
    unfold goalLookup rfBoard
    simp only
    rw [hgp]
    rfl

theorem claim_C10_witness :
    cTenBadS.generate_successors = none ∧
    (cThreeS.generate_successors).isSome = true ∧
    read_from_file cTenLines =
      some (rfBoard ((cTenLines.foldlM processLine initRF).getD initRF),
            rfGoalBoard ((cTenLines.foldlM processLine initRF).getD initRF)) := by
  refine ⟨?_, ?_, ?_⟩
  · exact claim_C10.1 cTenBadS cThreeP (by decide) (by decide) (by decide)
  · obtain ⟨L, hL, _⟩ := claim_C10.2.1 cThreeS (by decide) (by decide) (by decide)
    rw [hL]
    rfl
  · exact (claim_C10.2.2 cTenLines _ rfl rfl rfl rfl (Or.inl rfl)).1

theorem setCell_valid {H : Nat} {g : Grid} (hv : validGrid H g) (y x : Int) {c : Char}
    (hc : c ∈ alphabet) : validGrid H (setCell g y x c) := by
  unfold setCell
  split
  case isFalse => exact hv
  case isTrue hcond =>
    refine ⟨by rw [List.length_set]; exact hv.1, ?_⟩
    intro row hrow
    rcases List.mem_or_eq_of_mem_set hrow with h1 | h2
    · exact hv.2 _ h1
    · have hold := hv.2 _ (@getD_mem (List Char) g y.toNat [] hcond.2.1)
      refine ⟨by rw [h2, List.length_set]; exact hold.1, ?_⟩
      intro c2 hc2
      rw [h2] at hc2
      rcases List.mem_or_eq_of_mem_set hc2 with h3 | h3
      · exact hold.2 _ h3
      · rw [h3]; exact hc

theorem stampPiece_valid {H : Nat} {g : Grid} (hv : validGrid H g) (p : Piece) :
    validGrid H (stampPiece g p) := by
  simp only [stampPiece]
  repeat' split
  all_goals
    first
    | exact hv
    | exact setCell_valid hv _ _ (by decide)
    | exact setCell_valid (setCell_valid hv _ _ (by decide)) _ _ (by decide)
    | exact setCell_valid (setCell_valid (setCell_valid (setCell_valid hv _ _ (by decide))
        _ _ (by decide)) _ _ (by decide)) _ _ (by decide)

theorem blank_valid (H : Nat) :
    validGrid H (List.replicate H (List.replicate 4 char_empty)) := by
  refine ⟨List.length_replicate _ _, ?_⟩
  intro row hrow
  rw [List.mem_replicate] at hrow
  rw [hrow.2]
  refine ⟨List.length_replicate _ _, ?_⟩
  intro c hc
  rw [List.mem_replicate] at hc
  rw [hc.2]
  decide

theorem update_grid_valid {b : Board} {H : Nat} (hh : b.height = H) :
    validGrid H b.update_grid := by
  have key : ∀ (ps : List Piece) (g : Grid), validGrid H g →
      validGrid H (ps.foldl stampPiece g) := by
    intro ps
    induction ps with
    | nil => intro g hg; exact hg
    | cons p ps ih => intro g hg; exact ih _ (stampPiece_valid hg p)
  unfold Board.update_grid
  rw [hh]
  exact key _ _ (blank_valid _)

theorem charCode_inj : ∀ c ∈ alphabet, ∀ c2 ∈ alphabet,
    charCode c = charCode c2 → c = c2 := by
  decide

theorem getCell_nat (g : Grid) (i j : Nat) :
    getCell g (i : Int) (j : Int) = (g.getD i []).getD j '*' := by
  rw [getCell_def, if_pos ⟨Int.natCast_nonneg i, Int.natCast_nonneg j⟩,
    Int.toNat_natCast, Int.toNat_natCast]

theorem getD_get {α : Type} (l : List α) (i : Nat) (d : α) (h : i < l.length) :
    l.getD i d = l.get ⟨i, h⟩ := by
  rw [List.getD_eq_get?, List.get?_eq_get h]
  rfl

theorem gridCode_inj {H : Nat} {g g2 : Grid} (hv : validGrid H g) (hv2 : validGrid H g2)
    (h : gridCode H g = gridCode H g2) : g = g2 := by
  refine List.ext_get (by rw [hv.1, hv2.1]) ?_
  intro i h1 h2
  have hi : i < H := by rw [← hv.1]; exact h1
  have hrow := hv.2 _ (List.get_mem g i h1)
  have hrow2 := hv2.2 _ (List.get_mem g2 i h2)
  refine List.ext_get (by rw [hrow.1, hrow2.1]) ?_
  intro j hj1 hj2
  have hjlt : j < 4 := by rw [← hrow.1]; exact hj1
  have hget : getCell g (i : Int) (j : Int) = (g.get ⟨i, h1⟩).get ⟨j, hj1⟩ := by
    rw [getCell_nat, getD_get g i [] h1, getD_get _ j '*' hj1]
  have hget2 : getCell g2 (i : Int) (j : Int) = (g2.get ⟨i, h2⟩).get ⟨j, hj2⟩ := by
    rw [getCell_nat, getD_get g2 i [] h2, getD_get _ j '*' hj2]
  have hcode := congrFun (congrFun h ⟨i, hi⟩) ⟨j, hjlt⟩
  unfold gridCode at hcode
  simp only at hcode
  rw [hget, hget2] at hcode
  exact charCode_inj _ (hrow.2 _ (List.get_mem _ _ _)) _
    (hrow2.2 _ (List.get_mem _ _ _)) hcode

/-- Pigeonhole: a duplicate-free list of valid grids has at most
card (Fin H -> Fin 4 -> Fin 7) members. -/
theorem visited_bound {H : Nat} {visited : List Grid} (hnd : visited.Nodup)
    (hval : ∀ g ∈ visited, validGrid H g) :
    visited.length ≤ Fintype.card (Fin H → Fin 4 → Fin 7) := by
  have hmap : (visited.map (gridCode H)).Nodup :=
    List.Nodup.map_on
      (fun a ha b hb hab => gridCode_inj (hval a ha) (hval b hb) hab) hnd
  have := List.Nodup.length_le_card hmap
  rw [List.length_map] at this
  exact this

theorem setF_board (s : State) (x : Int) : (s.setF x).board = s.board := by
  cases s; rfl

theorem newKeys_length (b : Board) (p : Piece) : (newKeys b p).length ≤ 4 := by
  simp only [newKeys]
  repeat' split
  all_goals simp only [List.length_append, List.length_cons, List.length_nil]
  all_goals omega

/-- A successful expansion yields at most 4 destinations per piece. -/
theorem gen_length {s : State} {L : List State} (h : s.generate_successors = some L) :
    L.length ≤ 4 * (dictValues s.board.pieces).length := by
  unfold State.generate_successors at h
  cases hg : optMap (fun piece => optMap (mkSucc s piece) (newKeys s.board piece))
      (dictValues s.board.pieces) with
  | none =>
    rw [hg] at h
    simp only [Option.bind_eq_bind, Option.none_bind] at h
    cases h
  | some groups =>
    rw [hg] at h
    simp only [Option.bind_eq_bind, Option.some_bind, Option.pure_def] at h
    obtain rfl := Option.some.inj h
    have hf2 := optMap_eq_some.mp hg
    have hglen : groups.length = (dictValues s.board.pieces).length :=
      (List.Forall₂.length_eq hf2).symm
    have heach : ∀ n ∈ groups.map List.length, n ≤ 4 := by
      intro n hn
      obtain ⟨grp, hgrp, rfl⟩ := List.mem_map.mp hn
      obtain ⟨p, _, hpg⟩ := forall2_mem_right hf2 grp hgrp
      have hle := List.Forall₂.length_eq (optMap_eq_some.mp hpg)
      rw [← hle]
      exact newKeys_length _ _
    have hsum := List.sum_le_card_nsmul (groups.map List.length) 4 heach
    rw [List.length_flatten]
    rw [List.length_map, smul_eq_mul, hglen] at hsum
    omega

theorem dictInsert_length_le {K V : Type} [DecidableEq K] :
    ∀ (l : List (K × V)) (k : K) (v : V), (dictInsert l k v).length ≤ l.length + 1 := by
  intro l
  induction l with
  | nil => intro k v; simp [dictInsert]
  | cons e rest ih =>
    intro k v
    unfold dictInsert
    split
    · simp
    · simp only [List.length_cons]
      have := ih k v
      omega

theorem dictRemove_length_of_get {K V : Type} [DecidableEq K] :
    ∀ {l : List (K × V)} {k : K} {v : V}, dictGet l k = some v →
      (dictRemove l k).length + 1 = l.length := by
  intro l
  induction l with
  | nil => intro k v h; cases h
  | cons e rest ih =>
    intro k v h
    unfold dictGet at h
    unfold dictRemove
    by_cases he : e.1 = k
    · rw [if_pos he]
      rfl
    · rw [if_neg he] at h
      rw [if_neg he]
      simp only [List.length_cons]
      rw [ih h]

/-- Successor boards keep the parent height and never gain pieces. -/
theorem succ_board_shape {s : State} {L : List State}
    (h : s.generate_successors = some L) :
    ∀ t ∈ L, t.board.height = s.board.height ∧
      t.board.pieces.length ≤ s.board.pieces.length := by
  intro t ht
  obtain ⟨p, hp, k, hk, hmk⟩ := generate_successors_mem h t ht
  obtain ⟨dict, gp, b2, hdict, hgp, hcb, rfl⟩ := mkSucc_eq hmk
  obtain ⟨p0, hold, hb2⟩ := copy_board_eq hcb
  constructor
  · show b2.height = s.board.height
    rw [hb2]
  · show b2.pieces.length ≤ s.board.pieces.length
    rw [hb2]
    have h1 := dictInsert_length_le (dictRemove s.board.pieces (p.coord_x, p.coord_y)) k
      { p0 with coord_x := k.1, coord_y := k.2 }
    have h2 := dictRemove_length_of_get hold
    show (dictInsert (dictRemove s.board.pieces (p.coord_x, p.coord_y)) k
      { p0 with coord_x := k.1, coord_y := k.2 }).length ≤ s.board.pieces.length
    omega

theorem succ_wfS {H P : Nat} {s : State} {L : List State} (hw : wfS H P s)
    (h : s.generate_successors = some L) : ∀ t ∈ L, wfS H P t := by
  intro t ht
  obtain ⟨hgd, hkc2, hnd2, hcov2⟩ := succ_preserve hw.1 hw.2.1 hw.2.2.1 h t ht
  obtain ⟨hht, hlt⟩ := succ_board_shape h t ht
  exact ⟨hkc2, hnd2, hcov2, by rw [hht]; exact hw.2.2.2.1,
    le_trans hlt hw.2.2.2.2⟩

theorem astarPush_length :
    ∀ (succs : List State) (rest : List (Int × State)) (visited : List Grid),
      (astarPush rest succs visited).length ≤ rest.length + succs.length := by
  intro succs
  induction succs with
  | nil => intro rest visited; simp [astarPush]
  | cons st tl ih =>
    intro rest visited
    unfold astarPush
    split
    · have := ih rest visited
      simp only [List.length_cons]
      omega
    · have := ih (rest ++ [((st.setF (st.depth + st.hfn)).f, st.setF (st.depth + st.hfn))])
        visited
      simp only [List.length_append, List.length_cons, List.length_nil] at this
      simp only [List.length_cons]
      omega

theorem dfsPush_length :
    ∀ (succs : List State) (rest : List State) (visited : List Grid),
      (dfsPush rest succs visited).length ≤ rest.length + succs.length := by
  intro succs
  induction succs with
  | nil => intro rest visited; simp [dfsPush]
  | cons st tl ih =>
    intro rest visited
    unfold dfsPush
    split
    · have := ih rest visited
      simp only [List.length_cons]
      omega
    · have := ih (rest ++ [st]) visited
      simp only [List.length_append, List.length_cons, List.length_nil] at this
      simp only [List.length_cons]
      omega

theorem dfsPush_sub :
    ∀ (succs : List State) (rest : List State) (visited : List Grid),
      ∀ e ∈ dfsPush rest succs visited, e ∈ rest ∨ e ∈ succs := by
  intro succs
  induction succs with
  | nil =>
    intro rest visited e he
    exact Or.inl he
  | cons st tl ih =>
    intro rest visited e he
    unfold dfsPush at he
    split at he
    · rcases ih rest visited e he with h1 | h1
      · exact Or.inl h1
      · exact Or.inr (List.mem_cons_of_mem _ h1)
    · rcases ih (rest ++ [st]) visited e he with h1 | h1
      · rcases List.mem_append.mp h1 with h2 | h2
        · exact Or.inl h2
        · simp only [List.mem_singleton] at h2
          exact Or.inr (h2 ▸ List.mem_cons_self _ _)
      · exact Or.inr (List.mem_cons_of_mem _ h1)

theorem popBack_eq_none {α : Type} {l : List α} (h : popBack l = none) : l = [] := by
  cases l with
  | nil => rfl
  | cons a t =>
    cases t with
    | nil => cases h
    | cons b2 r =>
      unfold popBack at h
      cases hp : popBack (b2 :: r) with
      | none => rw [hp] at h; cases h
      | some pr => rw [hp] at h; cases h

theorem popBack_spec {α : Type} :
    ∀ {l : List α} {a : α} {rest : List α}, popBack l = some (a, rest) →
      a ∈ l ∧ rest.length + 1 = l.length ∧ ∀ x ∈ rest, x ∈ l := by
  intro l
  induction l with
  | nil => intro a rest h; cases h
  | cons e t ih =>
    intro a rest h
    cases t with
    | nil =>
      unfold popBack at h
      obtain ⟨rfl, rfl⟩ := Prod.mk.injEq .. ▸ Option.some.inj h
      exact ⟨List.mem_cons_self _ _, rfl, by simp⟩
    | cons b2 r =>
      unfold popBack at h
      cases hp : popBack (b2 :: r) with
      | none => exact absurd (popBack_eq_none hp) (by simp)
      | some pr =>
        obtain ⟨x, r2⟩ := pr
        rw [hp] at h
        simp only at h
        obtain ⟨rfl, rfl⟩ := Prod.mk.injEq .. ▸ Option.some.inj h
        obtain ⟨hm, hlen, hsub⟩ := ih hp
        refine ⟨List.mem_cons_of_mem _ hm, ?_, ?_⟩
        · simp only [List.length_cons] at hlen ⊢
          omega
        · intro x2 hx2
          rcases List.mem_cons.mp hx2 with rfl | h3
          · exact List.mem_cons_self _ _
          · exact List.mem_cons_of_mem _ (hsub _ h3)

theorem astarAux_term {H P : Nat} (goal : Board) :
    ∀ (fuel : Nat) (heap : List (Int × State)) (visited : List Grid),
      (∀ e ∈ heap, wfS H P e.2) → visited.Nodup →
      (∀ g ∈ visited, validGrid H g) →
      heap.length + (gridCount H - visited.length) * (4 * P + 1) < fuel →
      ∃ res tr, astarAux goal fuel heap visited = some (res, tr) ∧
        (∀ s2, res = SRes.found s2 → s2.board.eqBoard goal = true ∧
          s2.board.update_grid ∉ visited) ∧ res ≠ SRes.err := by
  intro fuel
  induction fuel with
  | zero =>
    intro heap visited _ _ _ hm
    exact absurd hm (Nat.not_lt_zero _)
  | succ n ih =>
    intro heap visited hwf hnd hval hm
    cases hpop : popMin heap with
    | none =>
      have hstep : astarAux goal (n + 1) heap visited = some (.noSolution, []) := by
        rw [astarAux, hpop]
      exact ⟨.noSolution, [], hstep, fun s2 hs2 => SRes.noConfusion hs2,
        fun h => SRes.noConfusion h⟩
    | some pr =>
      obtain ⟨⟨f0, curr⟩, rest⟩ := pr
      obtain ⟨hmem, hlen, hsub⟩ := popMin_spec hpop
      by_cases hvis : curr.board.update_grid ∈ visited
      · have hstep : astarAux goal (n + 1) heap visited = astarAux goal n rest visited := by
          rw [astarAux, hpop]
          simp only
          rw [if_pos hvis]
        have hm2 : rest.length + (gridCount H - visited.length) * (4 * P + 1) < n := by
          obtain ⟨C, hC⟩ : ∃ C,
              (gridCount H - visited.length) * (4 * P + 1) = C := ⟨_, rfl⟩
          rw [hC] at hm ⊢
          omega
        obtain ⟨res, tr, hrun, hfound, herr⟩ :=
          ih rest visited (fun e2 he2 => hwf e2 (hsub e2 he2)) hnd hval hm2
        exact ⟨res, tr, hstep ▸ hrun, hfound, herr⟩
      · have hwcurr : wfS H P curr := hwf _ hmem
        by_cases hgoal : curr.board.eqBoard goal = true
        · have hstep : astarAux goal (n + 1) heap visited = some (.found curr, []) := by
            rw [astarAux, hpop]
            simp only
            rw [if_neg hvis, if_pos hgoal]
          refine ⟨.found curr, [], hstep, ?_, fun h => SRes.noConfusion h⟩
          intro s2 hs2
          injection hs2 with h2
          subst h2
          exact ⟨hgoal, hvis⟩
        · cases hgen : curr.generate_successors with
          | none =>
            exfalso
            obtain ⟨L, hL⟩ := gen_some hwcurr.1 hwcurr.2.1 hwcurr.2.2.1
            rw [hL] at hgen
            cases hgen
          | some succs =>
            have hnd2 : (curr.board.update_grid :: visited).Nodup :=
              List.nodup_cons.mpr ⟨hvis, hnd⟩
            have hval2 : ∀ g ∈ curr.board.update_grid :: visited, validGrid H g := by
              intro g hg
              rcases List.mem_cons.mp hg with rfl | h2
              · exact update_grid_valid hwcurr.2.2.2.1
              · exact hval g h2
            have hwf2 : ∀ e ∈ astarPush rest succs (curr.board.update_grid :: visited),
                wfS H P e.2 := by
              intro e he
              rcases (astarPush_mem succs rest _ e).mp he with h1 | ⟨t, ht, _, rfl⟩
              · exact hwf e (hsub e h1)
              · have hwt := succ_wfS hwcurr hgen t ht
                unfold wfS
                rw [setF_board]
                exact hwt
            have hvlt : visited.length < gridCount H := by
              have hb : (curr.board.update_grid :: visited).length ≤ gridCount H :=
                visited_bound hnd2 hval2
              simp only [List.length_cons] at hb
              omega
            have hsl : succs.length ≤ 4 * P := by
              have h1 := gen_length hgen
              have hdv : (dictValues curr.board.pieces).length =
                  curr.board.pieces.length := List.length_map _ _
              rw [hdv] at h1
              exact le_trans h1 (Nat.mul_le_mul (le_refl 4) hwcurr.2.2.2.2)
            have hpl := astarPush_length succs rest (curr.board.update_grid :: visited)
            have hm2 : (astarPush rest succs (curr.board.update_grid :: visited)).length +
                (gridCount H - (curr.board.update_grid :: visited).length) *
                  (4 * P + 1) < n := by
              simp only [List.length_cons]
              obtain ⟨A, hA⟩ : ∃ A,
                  (gridCount H - (visited.length + 1)) * (4 * P + 1) = A := ⟨_, rfl⟩
              have hsplit : (gridCount H - visited.length) * (4 * P + 1) =
                  A + (4 * P + 1) := by
                have h1 : gridCount H - visited.length =
                    (gridCount H - (visited.length + 1)) + 1 := by omega
                rw [h1, Nat.add_mul, Nat.one_mul, hA]
              rw [hA]
              rw [hsplit] at hm
              obtain ⟨B, hB⟩ : ∃ B, 4 * P = B := ⟨_, rfl⟩
              rw [hB] at hm hsl
              omega
            obtain ⟨res, tr, hrun, hfound, herr⟩ := ih _ _ hwf2 hnd2 hval2 hm2
            have hstep : astarAux goal (n + 1) heap visited =
                some (res, curr.board.update_grid :: tr) := by
              rw [astarAux, hpop]
              simp only
              rw [if_neg hvis, if_neg hgoal, hgen]
              simp only
              rw [hrun]
            refine ⟨res, curr.board.update_grid :: tr, hstep, ?_, herr⟩
            intro s2 hs2
            obtain ⟨hg2, hnv2⟩ := hfound s2 hs2
            exact ⟨hg2, fun hmem2 => hnv2 (List.mem_cons_of_mem _ hmem2)⟩

theorem dfsAux_term {H P : Nat} (goal : Board) :
    ∀ (fuel : Nat) (stack : List State) (visited : List Grid),
      (∀ s ∈ stack, wfS H P s) → visited.Nodup →
      (∀ g ∈ visited, validGrid H g) →
      stack.length + (gridCount H - visited.length) * (4 * P + 1) < fuel →
      ∃ res tr, dfsAux goal fuel stack visited = some (res, tr) ∧
        (∀ s2, res = SRes.found s2 → s2.board.eqBoard goal = true ∧
          s2.board.update_grid ∉ visited) ∧ res ≠ SRes.err := by
  intro fuel
  induction fuel with
  | zero =>
    intro stack visited _ _ _ hm
    exact absurd hm (Nat.not_lt_zero _)
  | succ n ih =>
    intro stack visited hwf hnd hval hm
    cases hpop : popBack stack with
    | none =>
      have hstep : dfsAux goal (n + 1) stack visited = some (.noSolution, []) := by
        rw [dfsAux, hpop]
      exact ⟨.noSolution, [], hstep, fun s2 hs2 => SRes.noConfusion hs2,
        fun h => SRes.noConfusion h⟩
    | some pr =>
      obtain ⟨curr, rest⟩ := pr
      obtain ⟨hmem, hlen, hsub⟩ := popBack_spec hpop
      by_cases hvis : curr.board.update_grid ∈ visited
      · have hstep : dfsAux goal (n + 1) stack visited = dfsAux goal n rest visited := by
          rw [dfsAux, hpop]
          simp only
          rw [if_pos hvis]
        have hm2 : rest.length + (gridCount H - visited.length) * (4 * P + 1) < n := by
          obtain ⟨C, hC⟩ : ∃ C,
              (gridCount H - visited.length) * (4 * P + 1) = C := ⟨_, rfl⟩
          rw [hC] at hm ⊢
          omega
        obtain ⟨res, tr, hrun, hfound, herr⟩ :=
          ih rest visited (fun e2 he2 => hwf e2 (hsub e2 he2)) hnd hval hm2
        exact ⟨res, tr, hstep ▸ hrun, hfound, herr⟩
      · have hwcurr : wfS H P curr := hwf _ hmem
        by_cases hgoal : curr.board.eqBoard goal = true
        · have hstep : dfsAux goal (n + 1) stack visited = some (.found curr, []) := by
            rw [dfsAux, hpop]
            simp only
            rw [if_neg hvis, if_pos hgoal]
          refine ⟨.found curr, [], hstep, ?_, fun h => SRes.noConfusion h⟩
          intro s2 hs2
          injection hs2 with h2
          subst h2
          exact ⟨hgoal, hvis⟩
        · cases hgen : curr.generate_successors with
          | none =>
            exfalso
            obtain ⟨L, hL⟩ := gen_some hwcurr.1 hwcurr.2.1 hwcurr.2.2.1
            rw [hL] at hgen
            cases hgen
          | some succs =>
            have hnd2 : (curr.board.update_grid :: visited).Nodup :=
              List.nodup_cons.mpr ⟨hvis, hnd⟩
            have hval2 : ∀ g ∈ curr.board.update_grid :: visited, validGrid H g := by
              intro g hg
              rcases List.mem_cons.mp hg with rfl | h2
              · exact update_grid_valid hwcurr.2.2.2.1
              · exact hval g h2
            have hwf2 : ∀ s ∈ dfsPush rest succs (curr.board.update_grid :: visited),
                wfS H P s := by
              intro s hs
              rcases dfsPush_sub succs rest _ s hs with h1 | h1
              · exact hwf s (hsub s h1)
              · exact succ_wfS hwcurr hgen s h1
            have hvlt : visited.length < gridCount H := by
              have hb : (curr.board.update_grid :: visited).length ≤ gridCount H :=
                visited_bound hnd2 hval2
              simp only [List.length_cons] at hb
              omega
            have hsl : succs.length ≤ 4 * P := by
              have h1 := gen_length hgen
              have hdv : (dictValues curr.board.pieces).length =
                  curr.board.pieces.length := List.length_map _ _
              rw [hdv] at h1
              exact le_trans h1 (Nat.mul_le_mul (le_refl 4) hwcurr.2.2.2.2)
            have hpl := dfsPush_length succs rest (curr.board.update_grid :: visited)
            have hm2 : (dfsPush rest succs (curr.board.update_grid :: visited)).length +
                (gridCount H - (curr.board.update_grid :: visited).length) *
                  (4 * P + 1) < n := by
              simp only [List.length_cons]
              obtain ⟨A, hA⟩ : ∃ A,
                  (gridCount H - (visited.length + 1)) * (4 * P + 1) = A := ⟨_, rfl⟩
              have hsplit : (gridCount H - visited.length) * (4 * P + 1) =
                  A + (4 * P + 1) := by
                have h1 : gridCount H - visited.length =
                    (gridCount H - (visited.length + 1)) + 1 := by omega
                rw [h1, Nat.add_mul, Nat.one_mul, hA]
              rw [hA]
              rw [hsplit] at hm
              obtain ⟨B, hB⟩ : ∃ B, 4 * P = B := ⟨_, rfl⟩
              rw [hB] at hm hsl
              omega
            obtain ⟨res, tr, hrun, hfound, herr⟩ := ih _ _ hwf2 hnd2 hval2 hm2
            have hstep : dfsAux goal (n + 1) stack visited =
                some (res, curr.board.update_grid :: tr) := by
              rw [dfsAux, hpop]
              simp only
              rw [if_neg hvis, if_neg hgoal, hgen]
              simp only
              rw [hrun]
            refine ⟨res, curr.board.update_grid :: tr, hstep, ?_, herr⟩
            intro s2 hs2
            obtain ⟨hg2, hnv2⟩ := hfound s2 hs2
            exact ⟨hg2, fun hmem2 => hnv2 (List.mem_cons_of_mem _ hmem2)⟩

/-- C6: for every well-formed initial state (consistent, duplicate-free
piece keys, total goal map, height H, at most P pieces) and every goal
board, both search strategies terminate within stateBound H P steps:
each returns a node whose grid equals the goal grid when the goal test
succeeds, the no-solution outcome when the frontier empties, and never
the error outcome; the bound exists because the distinct grid renderings
are finite and each is expanded at most once. -/
theorem claim_C6 {H P : Nat} (initial : State) (goal_board : Board)
    (hw : wfS H P initial) (fuel : Nat) (hfuel : stateBound H P ≤ fuel) :
    (∃ res tr, astar initial goal_board fuel = some (res, tr) ∧
      (∀ s2, res = SRes.found s2 →
        s2.board.update_grid = goal_board.update_grid) ∧ res ≠ SRes.err) ∧
    (∃ res tr, dfs initial goal_board fuel = some (res, tr) ∧
      (∀ s2, res = SRes.found s2 →
        s2.board.update_grid = goal_board.update_grid) ∧ res ≠ SRes.err) := by
  obtain ⟨C, hC⟩ : ∃ C, gridCount H * (4 * P + 1) = C := ⟨_, rfl⟩
  have hfuel2 : C + 2 ≤ fuel := by
    unfold stateBound at hfuel
    rw [hC] at hfuel
    exact hfuel
  constructor
  · have hmA : ([(initial.f, initial)] : List (Int × State)).length +
        (gridCount H - ([] : List Grid).length) * (4 * P + 1) < fuel := by
      simp only [List.length_cons, List.length_nil, Nat.sub_zero]
      rw [hC]
      omega
    obtain ⟨res, tr, hrun, hfound, herr⟩ := astarAux_term goal_board fuel
      [(initial.f, initial)] []
      (fun e he => by
        rw [List.mem_singleton] at he
        rw [he]
        exact hw)
      List.nodup_nil (fun g hg => absurd hg (List.not_mem_nil g)) hmA
    refine ⟨res, tr, hrun, ?_, herr⟩
    intro s2 hs2
    exact of_decide_eq_true (hfound s2 hs2).1
  · have hmD : ([initial] : List State).length +
        (gridCount H - ([] : List Grid).length) * (4 * P + 1) < fuel := by
      simp only [List.length_cons, List.length_nil, Nat.sub_zero]
      rw [hC]
      omega
    obtain ⟨res, tr, hrun, hfound, herr⟩ := dfsAux_term goal_board fuel [initial] []
      (fun s hs => by
        rw [List.mem_singleton] at hs
        rw [hs]
        exact hw)
      List.nodup_nil (fun g hg => absurd hg (List.not_mem_nil g)) hmD
    refine ⟨res, tr, hrun, ?_, herr⟩
    intro s2 hs2
    exact of_decide_eq_true (hfound s2 hs2).1

theorem claim_C6_witness :
    wfS 2 1 cSixS ∧ stateBound 2 1 ≤ stateBound 2 1 ∧
    ((∃ res tr, astar cSixS cSixGoal (stateBound 2 1) = some (res, tr) ∧
      (∀ s2, res = SRes.found s2 →
        s2.board.update_grid = cSixGoal.update_grid) ∧ res ≠ SRes.err) ∧
    (∃ res tr, dfs cSixS cSixGoal (stateBound 2 1) = some (res, tr) ∧
      (∀ s2, res = SRes.found s2 →
        s2.board.update_grid = cSixGoal.update_grid) ∧ res ≠ SRes.err)) :=
  ⟨by decide, le_refl _,
    claim_C6 cSixS cSixGoal (by decide) (stateBound 2 1) (le_refl _)⟩

theorem fmi_gen (x y : Int) :
    ∀ (l : List Piece) (n i0 : Nat) (m0 : Int),
      ((∀ p ∈ l, m0 ≤ manDist x y p) ∧
        (l.enumFrom n).foldl (fmiF x y) (i0, some m0) = (i0, some m0)) ∨
      (∃ k, k < l.length ∧
        (l.enumFrom n).foldl (fmiF x y) (i0, some m0) =
          (n + k, some (manDist x y (l.getD k defaultPiece))) ∧
        manDist x y (l.getD k defaultPiece) < m0 ∧
        (∀ j, j < l.length →
          manDist x y (l.getD k defaultPiece) ≤ manDist x y (l.getD j defaultPiece)) ∧
        (∀ j, j < k →
          manDist x y (l.getD k defaultPiece) < manDist x y (l.getD j defaultPiece))) := by
  intro l
  induction l with
  | nil =>
    intro n i0 m0
    exact Or.inl ⟨fun p hp => absurd hp (List.not_mem_nil p), rfl⟩
  | cons p t ih =>
    intro n i0 m0
    have hstep : ((p :: t).enumFrom n).foldl (fmiF x y) (i0, some m0) =
        (t.enumFrom (n + 1)).foldl (fmiF x y) (fmiF x y (i0, some m0) (n, p)) := rfl
    by_cases hlt : manDist x y p < m0
    · have hF2 : fmiF x y (i0, some m0) (n, p) = (n, some (manDist x y p)) := by
        unfold fmiF
        simp only
        rw [if_pos hlt]
      rcases ih (n + 1) n (manDist x y p) with ⟨hall, heq⟩ |
        ⟨k, hk, heq, hlt2, hmin, hstrict⟩
      · refine Or.inr ⟨0, Nat.succ_pos _, ?_, hlt, ?_, ?_⟩
        · rw [hstep, hF2, heq]
          rfl
        · intro j hj
          cases j with
          | zero => exact le_refl _
          | succ j2 =>
            exact hall _ (getD_mem (by simp only [List.length_cons] at hj; omega))
        · intro j hj
          exact absurd hj (Nat.not_lt_zero _)
      · refine Or.inr ⟨k + 1, by simp only [List.length_cons]; omega, ?_,
          lt_trans hlt2 hlt, ?_, ?_⟩
        · rw [hstep, hF2, heq]
          have hidx : n + 1 + k = n + (k + 1) := by omega
          rw [hidx]
          rfl
        · intro j hj
          cases j with
          | zero => exact le_of_lt hlt2
          | succ j2 => exact hmin j2 (by simp only [List.length_cons] at hj; omega)
        · intro j hj
          cases j with
          | zero => exact hlt2
          | succ j2 => exact hstrict j2 (by omega)
    · have hF2 : fmiF x y (i0, some m0) (n, p) = (i0, some m0) := by
        unfold fmiF
        simp only
        rw [if_neg hlt]
      have hge : m0 ≤ manDist x y p := le_of_not_lt hlt
      rcases ih (n + 1) i0 m0 with ⟨hall, heq⟩ | ⟨k, hk, heq, hlt2, hmin, hstrict⟩
      · refine Or.inl ⟨?_, by rw [hstep, hF2, heq]⟩
        intro p2 hp2
        rcases List.mem_cons.mp hp2 with rfl | h2
        · exact hge
        · exact hall _ h2
      · refine Or.inr ⟨k + 1, by simp only [List.length_cons]; omega, ?_, hlt2, ?_, ?_⟩
        · rw [hstep, hF2, heq]
          have hidx : n + 1 + k = n + (k + 1) := by omega
          rw [hidx]
          rfl
        · intro j hj
          cases j with
          | zero => exact le_of_lt (lt_of_lt_of_le hlt2 hge)
          | succ j2 => exact hmin j2 (by simp only [List.length_cons] at hj; omega)
        · intro j hj
          cases j with
          | zero => exact lt_of_lt_of_le hlt2 hge
          | succ j2 => exact hstrict j2 (by omega)

/-- find_min_index picks the leftmost index of minimal Manhattan distance:
the index is in range, its distance is a lower bound of every candidate,
and every strictly earlier candidate is strictly farther (ties are won by
the earliest-loaded piece). -/
theorem find_min_index_spec (arr : List Piece) (x y : Int) (hne : arr ≠ []) :
    find_min_index arr x y < arr.length ∧
    (∀ j, j < arr.length →
      manDist x y (arr.getD (find_min_index arr x y) defaultPiece) ≤
        manDist x y (arr.getD j defaultPiece)) ∧
    (∀ j, j < find_min_index arr x y →
      manDist x y (arr.getD (find_min_index arr x y) defaultPiece) <
        manDist x y (arr.getD j defaultPiece)) := by
  cases arr with
  | nil => exact absurd rfl hne
  | cons p t =>
    have h0 : find_min_index (p :: t) x y =
        ((t.enumFrom 1).foldl (fmiF x y) (0, some (manDist x y p))).1 := rfl
    rcases fmi_gen x y t 1 0 (manDist x y p) with ⟨hall, heq⟩ |
      ⟨k, hk, heq, hlt2, hmin, hstrict⟩
    · have hfmi : find_min_index (p :: t) x y = 0 := by rw [h0, heq]
      rw [hfmi]
      refine ⟨Nat.succ_pos _, ?_, ?_⟩
      · intro j hj
        cases j with
        | zero => exact le_refl _
        | succ j2 =>
          exact hall _ (getD_mem (by simp only [List.length_cons] at hj; omega))
      · intro j hj
        exact absurd hj (Nat.not_lt_zero _)
    · have hfmi : find_min_index (p :: t) x y = k + 1 := by
        rw [h0, heq]
        omega
      rw [hfmi]
      refine ⟨by simp only [List.length_cons]; omega, ?_, ?_⟩
      · intro j hj
        cases j with
        | zero => exact le_of_lt hlt2
        | succ j2 => exact hmin j2 (by simp only [List.length_cons] at hj; omega)
      · intro j hj
        cases j with
        | zero => exact hlt2
        | succ j2 => exact hstrict j2 (by omega)

theorem listPop_of_lt {α : Type} {l : List α} {i : Nat} (h : i < l.length) (d : α) :
    listPop l i = some (l.getD i d, l.eraseIdx i) := by
  have hg : l.get? i = some (l.get ⟨i, h⟩) := List.get?_eq_get h
  unfold listPop
  rw [hg, getD_get l i d h]

theorem processChar_goal_vert {st : RF} {x : Int} (hf : st.final = true)
    (hne : st.vert ≠ []) :
    processChar st x '^' = some { st with
      vert := st.vert.eraseIdx (find_min_index st.vert x st.line_index),
      final_pieces := dictInsert st.final_pieces (x, st.line_index)
        (goalPieceV x st.line_index
          (st.vert.getD (find_min_index st.vert x st.line_index) defaultPiece).uid),
      goal_board_dict := dictInsert st.goal_board_dict
        (st.vert.getD (find_min_index st.vert x st.line_index) defaultPiece).uid
        (goalPieceV x st.line_index
          (st.vert.getD (find_min_index st.vert x st.line_index) defaultPiece).uid) } := by
  have hlt : find_min_index st.vert x st.line_index < st.vert.length :=
    (find_min_index_spec _ x st.line_index hne).1
  have hnf : ¬ (st.final = false) := by rw [hf]; exact fun h => Bool.noConfusion h
  unfold processChar
  rw [if_neg hnf, if_pos rfl, listPop_of_lt hlt defaultPiece]
  rfl

theorem processChar_goal_hori {st : RF} {x : Int} (hf : st.final = true)
    (hne : st.hori ≠ []) :
    processChar st x '<' = some { st with
      hori := st.hori.eraseIdx (find_min_index st.hori x st.line_index),
      final_pieces := dictInsert st.final_pieces (x, st.line_index)
        (goalPieceH x st.line_index
          (st.hori.getD (find_min_index st.hori x st.line_index) defaultPiece).uid),
      goal_board_dict := dictInsert st.goal_board_dict
        (st.hori.getD (find_min_index st.hori x st.line_index) defaultPiece).uid
        (goalPieceH x st.line_index
          (st.hori.getD (find_min_index st.hori x st.line_index) defaultPiece).uid) } := by
  have hlt : find_min_index st.hori x st.line_index < st.hori.length :=
    (find_min_index_spec _ x st.line_index hne).1
  have hnf : ¬ (st.final = false) := by rw [hf]; exact fun h => Bool.noConfusion h
  unfold processChar
  rw [if_neg hnf, if_neg (by decide), if_pos rfl, listPop_of_lt hlt defaultPiece]
  rfl

theorem processChar_goal_single {st : RF} {x : Int} (hf : st.final = true)
    (hne : st.singles ≠ []) :
    processChar st x char_single = some { st with
      singles := st.singles.eraseIdx (find_min_index st.singles x st.line_index),
      final_pieces := dictInsert st.final_pieces (x, st.line_index)
        (goalPieceS x st.line_index
          (st.singles.getD (find_min_index st.singles x st.line_index) defaultPiece).uid),
      goal_board_dict := dictInsert st.goal_board_dict
        (st.singles.getD (find_min_index st.singles x st.line_index) defaultPiece).uid
        (goalPieceS x st.line_index
          (st.singles.getD (find_min_index st.singles x st.line_index)
            defaultPiece).uid) } := by
  have hlt : find_min_index st.singles x st.line_index < st.singles.length :=
    (find_min_index_spec _ x st.line_index hne).1
  have hnf : ¬ (st.final = false) := by rw [hf]; exact fun h => Bool.noConfusion h
  unfold processChar
  rw [if_neg hnf, if_neg (by decide), if_neg (by decide), if_pos rfl,
    listPop_of_lt hlt defaultPiece]
  rfl

/-- C8: the loader's identity assignment is greedy nearest-first.
find_min_index returns the index of the earliest same-pool piece of
minimal Manhattan distance to the goal piece's coordinates (strictly
earlier candidates are strictly farther, so the earliest-loaded piece
wins ties); and in the goal section the character loop pops exactly that
piece from the pool of its shape, removes it from the candidate pool, and
maps its identity to the goal piece's record in goal_board_dict. -/
theorem claim_C8 :
    (∀ (arr : List Piece) (x y : Int), arr ≠ [] →
      find_min_index arr x y < arr.length ∧
      (∀ j, j < arr.length →
        manDist x y (arr.getD (find_min_index arr x y) defaultPiece) ≤
          manDist x y (arr.getD j defaultPiece)) ∧
      (∀ j, j < find_min_index arr x y →
        manDist x y (arr.getD (find_min_index arr x y) defaultPiece) <
          manDist x y (arr.getD j defaultPiece))) ∧
    (∀ (st : RF) (x : Int), st.final = true → st.vert ≠ [] →
      processChar st x '^' = some { st with
        vert := st.vert.eraseIdx (find_min_index st.vert x st.line_index),
        final_pieces := dictInsert st.final_pieces (x, st.line_index)
          (goalPieceV x st.line_index
            (st.vert.getD (find_min_index st.vert x st.line_index) defaultPiece).uid),
        goal_board_dict := dictInsert st.goal_board_dict
          (st.vert.getD (find_min_index st.vert x st.line_index) defaultPiece).uid
          (goalPieceV x st.line_index
            (st.vert.getD (find_min_index st.vert x st.line_index)
              defaultPiece).uid) }) ∧
    (∀ (st : RF) (x : Int), st.final = true → st.hori ≠ [] →
      processChar st x '<' = some { st with
        hori := st.hori.eraseIdx (find_min_index st.hori x st.line_index),
        final_pieces := dictInsert st.final_pieces (x, st.line_index)
          (goalPieceH x st.line_index
            (st.hori.getD (find_min_index st.hori x st.line_index) defaultPiece).uid),
        goal_board_dict := dictInsert st.goal_board_dict
          (st.hori.getD (find_min_index st.hori x st.line_index) defaultPiece).uid
          (goalPieceH x st.line_index
            (st.hori.getD (find_min_index st.hori x st.line_index)
              defaultPiece).uid) }) ∧
    (∀ (st : RF) (x : Int), st.final = true → st.singles ≠ [] →
      processChar st x char_single = some { st with
        singles := st.singles.eraseIdx (find_min_index st.singles x st.line_index),
        final_pieces := dictInsert st.final_pieces (x, st.line_index)
          (goalPieceS x st.line_index
            (st.singles.getD (find_min_index st.singles x st.line_index)
              defaultPiece).uid),
        goal_board_dict := dictInsert st.goal_board_dict
          (st.singles.getD (find_min_index st.singles x st.line_index)
            defaultPiece).uid
          (goalPieceS x st.line_index
            (st.singles.getD (find_min_index st.singles x st.line_index)
              defaultPiece).uid) }) :=
  ⟨fun arr x y hne => find_min_index_spec arr x y hne,
   fun _ _ hf hne => processChar_goal_vert hf hne,
   fun _ _ hf hne => processChar_goal_hori hf hne,
   fun _ _ hf hne => processChar_goal_single hf hne⟩

theorem claim_C8_witness :
    find_min_index [cEightPV, cEightPV2] 3 0 < 2 ∧
    (processChar cEightRF 3 '^').isSome = true ∧
    (processChar cEightRF 0 '<').isSome = true ∧
    (processChar cEightRF 2 char_single).isSome = true :=
  ⟨(claim_C8.1 [cEightPV, cEightPV2] 3 0 (by decide)).1,
   by rw [claim_C8.2.1 cEightRF 3 rfl (by decide)]; rfl,
   by rw [claim_C8.2.2.1 cEightRF 0 rfl (by decide)]; rfl,
   by rw [claim_C8.2.2.2 cEightRF 2 rfl (by decide)]; rfl⟩
